import Mathlib

/-!
Shallow embedding of the `TaskQueueManager` class of the repository
(`参考项目提示词/components/icons.tsx`, lines 437-1348): a client-side job
queue that runs long-running remote generation tasks one at a time, with
bounded retry, pause/resume/stop control, drag reordering and
localStorage persistence.

The embedding has two layers:

* pure functions for the per-task pieces (`executeTask`'s retry recursion,
  `reorderTask`, `saveToStorage`'s snapshot projection, `loadFromStorage`'s
  crash-recovery normalisation, `importQueue`);
* a small-step machine (`QM`, `Event`, `step`) for the asynchronous parts.
  JavaScript is single-threaded and an `async` function only yields at
  `await`; accordingly each `Event` runs one synchronous segment of the
  source to its next suspension point.  Suspended `async` computations are
  recorded as `Fiber`s; `Event.settle` resumes a fiber waiting on its
  Executor (`await this.execute…(task)`), `Event.timer` resumes a fiber
  waiting on `await this.sleep(…)`.  Timestamps (`Date.now()`) are supplied
  by the environment as the `now` field of an event.
-/

namespace TaskQueue

/-- Task status, the four string values used by the source
(`pending`, `processing`, `completed`, `failed`). -/
inductive Status where
  | pending
  | processing
  | completed
  | failed
deriving DecidableEq, Repr

/-- The kind-specific parameter bag of a task.  The two fields that hold
uploaded `File` handles (`referenceImage`, `productImage`) are modelled
explicitly because `saveToStorage` nulls exactly them; every other
parameter is serialisable and kept as a key/value list. -/
structure Params where
  referenceImage : Option Nat
  productImage : Option Nat
  other : List (String × String)
deriving DecidableEq, Repr

/-- One queue entry, mirroring the object literal built by `addTask` plus
the fields written during execution (`startTime`, `completedAt`,
`duration`).  `id` is `Date.now() + Math.random()` in the source — an
identifier that must not collide within a session — modelled as a `Nat`
issued by a per-session counter. -/
structure Task where
  id : Nat
  type : String
  params : Params
  status : Status
  result : Option String
  error : Option String
  retryCount : Nat
  createdAt : Nat
  priority : Int
  startTime : Option Nat
  completedAt : Option Nat
  duration : Option Nat
deriving DecidableEq, Repr

/-- `task.status === 'processing'`. -/
def isProcessing (t : Task) : Bool :=
  match t.status with
  | .processing => true
  | _ => false

/-- `task.status === 'pending' || task.status === 'failed'` — the
eligibility test used by `runAll`. -/
def eligible (t : Task) : Bool :=
  match t.status with
  | .pending => true
  | .failed => true
  | _ => false

/-- The task types with a registered executor: the `switch (task.type)`
cases `generation`, `annotation`, `modification` of `executeTask`. -/
def knownType (ty : String) : Bool :=
  ty == "generation" || ty == "annotation" || ty == "modification"

/-- `` throw new Error(`未知的任务类型: ${task.type}`) ``. -/
def unknownTypeMsg (ty : String) : String :=
  "未知的任务类型: " ++ ty

/-- Start of `executeTask`: `task.status = 'processing'; task.startTime = Date.now()`. -/
def startAttempt (now : Nat) (t : Task) : Task :=
  { t with status := .processing, startTime := some now }

/-- Success branch of `executeTask`: status `completed`, store `result`,
clear `error`, record completion time and duration. -/
def applySuccess (now : Nat) (r : String) (t : Task) : Task :=
  { t with
    status := .completed
    result := some r
    error := none
    completedAt := some now
    duration := some (now - t.startTime.getD now) }

/-- Retry branch of the catch block: `retryCount++`, back to `pending`,
error annotated with the attempt number (`` `${msg} (重试 ${n}/${max})` ``). -/
def retryBump (maxRetries : Nat) (msg : String) (t : Task) : Task :=
  { t with
    retryCount := t.retryCount + 1
    status := .pending
    error := some (msg ++ " (重试 " ++ toString (t.retryCount + 1) ++ "/" ++
      toString maxRetries ++ ")") }

/-- Exhausted branch of the catch block: status `failed`, record the error. -/
def failNow (msg : String) (t : Task) : Task :=
  { t with status := .failed, error := some msg }

/-- The complete retry recursion of `executeTask` on a single task, with the
executor's outcome for attempt `n` supplied by `exec n` (the executor is a
pluggable collaborator; `n` is the task's `retryCount` when the attempt is
dispatched).  The extra `Nat` argument bounds the recursion depth; the
source recursion is guarded by `retryCount < maxRetries` and each retry
increments `retryCount`, so `maxRetries - retryCount + 1` attempts always
suffice — `executeTaskPure` passes exactly that bound, and the `0` case is
unreachable from it. -/
def executeTaskGo (maxRetries : Nat) (exec : Nat → Except String String)
    (now : Nat) : Nat → Task → Task
  | 0, t => t
  | fuel + 1, task =>
    let t1 := startAttempt now task
    match (if knownType t1.type then exec t1.retryCount
           else Except.error (unknownTypeMsg t1.type)) with
    | .ok r => applySuccess now r t1
    | .error msg =>
      if t1.retryCount < maxRetries then
        executeTaskGo maxRetries exec now fuel (retryBump maxRetries msg t1)
      else
        failNow msg t1

/-- `executeTask(task)` run to completion (the value of the task when the
whole recursive invocation settles). -/
def executeTaskPure (maxRetries : Nat) (exec : Nat → Except String String)
    (now : Nat) (task : Task) : Task :=
  executeTaskGo maxRetries exec now (maxRetries - task.retryCount + 1) task

/-- The successive states the task passes through during
`executeTaskPure`: the `processing` state of each attempt, each
intermediate retry state, and the final state.  Mirrors `executeTaskGo`. -/
def executeTaskStatesGo (maxRetries : Nat) (exec : Nat → Except String String)
    (now : Nat) : Nat → Task → List Task
  | 0, t => [t]
  | fuel + 1, task =>
    let t1 := startAttempt now task
    match (if knownType t1.type then exec t1.retryCount
           else Except.error (unknownTypeMsg t1.type)) with
    | .ok r => [t1, applySuccess now r t1]
    | .error msg =>
      if t1.retryCount < maxRetries then
        t1 :: executeTaskStatesGo maxRetries exec now fuel (retryBump maxRetries msg t1)
      else
        [t1, failNow msg t1]

/-- Intermediate states of a full `executeTask` invocation. -/
def executeTaskStates (maxRetries : Nat) (exec : Nat → Except String String)
    (now : Nat) (task : Task) : List Task :=
  executeTaskStatesGo maxRetries exec now (maxRetries - task.retryCount + 1) task

/-- The projection applied to every task by `saveToStorage`: spread the
task, spread its params, null the two `File`-holding fields. -/
def snapshotTask (t : Task) : Task :=
  { t with params := { t.params with referenceImage := none, productImage := none } }

/-- The array `queueData` that `saveToStorage` serialises to localStorage. -/
def saveToStorageData (q : List Task) : List Task :=
  q.map snapshotTask

/-- The crash-recovery normalisation of `loadFromStorage`: every stored
`processing` task is reset to `pending` (nothing else changes). -/
def normalizeLoaded (q : List Task) : List Task :=
  q.map (fun t => if t.status = .processing then { t with status := .pending } else t)

/-- `loadFromStorage`: parse the stored array if present (missing or
unparseable data leaves the queue empty), then reset `processing` to
`pending`. -/
def loadFromStorage (stored : Option (List Task)) : List Task :=
  match stored with
  | some q => normalizeLoaded q
  | none => []

/-- `importQueue`: after `JSON.parse` yields an array, the source does
`this.queue = data` — a wholesale replacement with no further processing
of the entries. -/
def importQueueData (imported : List Task) : List Task :=
  imported

/-- Insertion at an index, with the clamping behaviour of
`Array.prototype.splice(start, 0, x)`: a start beyond the end appends. -/
def insertAt {α : Type} : Nat → α → List α → List α
  | 0, a, l => a :: l
  | _ + 1, a, [] => [a]
  | n + 1, a, b :: bs => b :: insertAt n a bs

/-- `reorderTask(fromIndex, toIndex)`: no-op on equal indices, otherwise
`splice` the element out at `fromIndex` and `splice` it back in at
`toIndex`.  (With an out-of-bounds `fromIndex` the source would splice
`undefined` into the array; that degenerate case is modelled as a no-op
and is not exercised by any claim.) -/
def reorderTask (q : List Task) (fromIndex toIndex : Nat) : List Task :=
  if fromIndex = toIndex then q
  else
    match q[fromIndex]? with
    | none => q
    | some task => insertAt toIndex task (q.eraseIdx fromIndex)

/-! ## The step machine

State of the queue manager plus the suspended `async` computations of the
JavaScript event loop. -/

/-- A suspension point inside one `executeTask` invocation.  The carried
`Task` is the state of the task object the invocation is mutating (the
queue entry with the same `id` aliases it while the task is in the
queue). -/
inductive Phase where
  | awaitingExec (t : Task)
  | retryWait (t : Task)
deriving DecidableEq, Repr

/-- A suspended `async` computation: the `runAll` sweep inside
`executeTask` at list index `i`, the sweep in its 1-second inter-task
`sleep` after index `i`, or a `runTask` invocation inside `executeTask`. -/
inductive Fiber where
  | sweep (i : Nat) (ph : Phase)
  | sweepSleep (i : Nat)
  | single (ph : Phase)
deriving DecidableEq, Repr

/-- The task object a phase is mutating. -/
def phaseTask : Phase → Task
  | .awaitingExec t => t
  | .retryWait t => t

/-- The id of the task a fiber is currently executing, when it is inside
`executeTask`. -/
def fibId : Fiber → Option Nat
  | .sweep _ ph => some (phaseTask ph).id
  | .single ph => some (phaseTask ph).id
  | .sweepSleep _ => none

/-- The `TaskQueueManager` fields relevant to scheduling, plus the live
fibers and the id counter that models `Date.now() + Math.random()`. -/
structure QM where
  queue : List Task
  isRunning : Bool
  isPaused : Bool
  currentTaskIndex : Int
  maxRetries : Nat
  nextId : Nat
  fibers : List Fiber
deriving DecidableEq, Repr

/-- One interleaving step: either a caller-invoked queue operation (each
runs synchronously to its first suspension point, as in the event loop)
or the environment resuming a suspended fiber — `settle` with the
executor's outcome at an `awaitingExec` point, `timer` at a `retryWait`
or `sweepSleep` point. -/
inductive Event where
  | addTask (ty : Option String) (ps : Option Params) (pr : Option Int) (now : Nat)
  | removeTask (tid : Nat)
  | reorderTask (fromIndex toIndex : Nat)
  | runAll (now : Nat)
  | runTask (tid : Nat) (now : Nat)
  | pauseQueue
  | resumeQueue
  | stopQueue
  | settle (fi : Nat) (outcome : Except String String) (now : Nat)
  | timer (fi : Nat) (now : Nat)
deriving Repr

/-- Mutating the task object also updates the queue entry that aliases it
(the entry with the same id); a task removed from the queue mid-retry is
simply no longer visible there. -/
def setById (q : List Task) (t : Task) : List Task :=
  q.map (fun u => if u.id == t.id then t else u)

/-- The synchronous prefix of `executeTask(task)`: mark `processing`,
record the start time, dispatch on `task.type`.  A known type suspends at
the `await` on its executor; an unknown type throws synchronously into
the catch block, which either schedules a retry (suspending at
`await this.sleep(2000)`) or settles the task as `failed` and returns. -/
def execEnter (maxRetries now : Nat) (q : List Task) (t : Task) :
    List Task × (Phase ⊕ Task) :=
  let t1 := startAttempt now t
  let q1 := setById q t1
  if knownType t1.type then
    (q1, Sum.inl (Phase.awaitingExec t1))
  else if t1.retryCount < maxRetries then
    let t2 := retryBump maxRetries (unknownTypeMsg t1.type) t1
    (setById q1 t2, Sum.inl (Phase.retryWait t2))
  else
    let t2 := failNow (unknownTypeMsg t1.type) t1
    (setById q1 t2, Sum.inr t2)

/-- Resumption of `executeTask` when the awaited executor settles: success
completes the task and returns; failure either schedules a retry
(suspending at the backoff `sleep`) or settles the task as `failed` and
returns. -/
def execSettle (maxRetries now : Nat) (q : List Task) (t : Task)
    (outcome : Except String String) : List Task × (Phase ⊕ Task) :=
  match outcome with
  | .ok r =>
    let t1 := applySuccess now r t
    (setById q t1, Sum.inr t1)
  | .error msg =>
    if t.retryCount < maxRetries then
      let t1 := retryBump maxRetries msg t
      (setById q t1, Sum.inl (Phase.retryWait t1))
    else
      let t1 := failNow msg t
      (setById q t1, Sum.inr t1)

/-- The `for` loop of `runAll` from index `i`, run synchronously until it
suspends or exits.  The loop re-reads `this.queue.length` and
`this.isPaused` each iteration; its only synchronous repetition is
skipping ineligible entries, so `q.length - i` iterations always suffice
and the fuel-0 case coincides with the loop's exit condition.  Returns
the updated queue and `some (currentTaskIndex, fiber)` on suspension, or
`none` when the loop exited and the epilogue runs. -/
def sweepLoopAux (maxRetries now : Nat) (paused : Bool) (q : List Task) :
    Nat → Nat → List Task × Option (Nat × Fiber)
  | 0, _ => (q, none)
  | fuel + 1, i =>
    match q[i]? with
    | none => (q, none)
    | some t =>
      if paused then (q, none)
      else if eligible t then
        match execEnter maxRetries now q t with
        | (q1, Sum.inl ph) => (q1, some (i, Fiber.sweep i ph))
        | (q1, Sum.inr _) =>
          if i + 1 < q1.length then (q1, some (i, Fiber.sweepSleep i))
          else (q1, none)
      else
        sweepLoopAux maxRetries now paused q fuel (i + 1)

/-- The `runAll` loop entered at index `i`. -/
def sweepLoop (maxRetries now : Nat) (paused : Bool) (q : List Task) (i : Nat) :
    List Task × Option (Nat × Fiber) :=
  sweepLoopAux maxRetries now paused q (q.length - i) i

/-- `this.queue.findIndex(t => t.id === taskId)`. -/
def findIdxById : List Task → Nat → Option Nat
  | [], _ => none
  | t :: rest, tid =>
    if t.id == tid then some 0
    else (findIdxById rest tid).map (· + 1)

/-- State reached when a suspended `executeTask` invocation returns:
inside a sweep the loop next awaits the 1-second inter-task sleep unless
the finished index was the last one, in which case the loop exits and the
epilogue clears `isRunning` and `currentTaskIndex`; a `runTask`
invocation just clears `isRunning`. -/
def finishFiber (s : QM) (fi : Nat) (q1 : List Task) (ctx : Option Nat) : QM :=
  match ctx with
  | some i =>
    if i + 1 < q1.length then
      { s with queue := q1, fibers := s.fibers.set fi (Fiber.sweepSleep i) }
    else
      { s with queue := q1, isRunning := false, currentTaskIndex := -1,
               fibers := s.fibers.eraseIdx fi }
  | none =>
    { s with queue := q1, isRunning := false, fibers := s.fibers.eraseIdx fi }

/-- The step function.  Each case is the corresponding source method run
to its next suspension point (queue operations are synchronous except the
entry of `runAll`/`runTask`); `settle`/`timer` resume the fiber at the
given index, and are no-ops when no fiber waits there in the matching
phase. -/
def step (s : QM) (e : Event) : QM :=
  match e with
  | .addTask ty ps pr now =>
    let newTask : Task :=
      { id := s.nextId
        type := ty.getD "generation"
        params := ps.getD ⟨none, none, []⟩
        status := .pending
        result := none
        error := none
        retryCount := 0
        createdAt := now
        priority := pr.getD 0
        startTime := none
        completedAt := none
        duration := none }
    { s with queue := s.queue ++ [newTask], nextId := s.nextId + 1 }
  | .removeTask tid =>
    match findIdxById s.queue tid with
    | none => s
    | some i =>
      match s.queue[i]? with
      | none => s
      | some t =>
        if isProcessing t then s
        else { s with queue := s.queue.eraseIdx i }
  | .reorderTask fromIndex toIndex =>
    { s with queue := reorderTask s.queue fromIndex toIndex }
  | .runAll now =>
    if s.isRunning then s
    else if (s.queue.filter eligible).isEmpty then s
    else
      match sweepLoop s.maxRetries now false s.queue 0 with
      | (q1, some (ci, f)) =>
        { s with queue := q1, isRunning := true, isPaused := false,
                 currentTaskIndex := (ci : Int), fibers := s.fibers ++ [f] }
      | (q1, none) =>
        { s with queue := q1, isRunning := false, isPaused := false,
                 currentTaskIndex := -1 }
  | .runTask tid now =>
    match s.queue.find? (fun u => u.id == tid) with
    | none => s
    | some t =>
      if s.isRunning then s
      else
        match execEnter s.maxRetries now s.queue t with
        | (q1, Sum.inl ph) =>
          { s with queue := q1, isRunning := true,
                   fibers := s.fibers ++ [Fiber.single ph] }
        | (q1, Sum.inr _) =>
          { s with queue := q1 }
  | .pauseQueue =>
    if s.isRunning then { s with isPaused := true } else s
  | .resumeQueue =>
    if s.isRunning && s.isPaused then
      { s with isPaused := false }
    else s
  | .stopQueue =>
    { s with isRunning := false, isPaused := false, currentTaskIndex := -1 }
  | .settle fi outcome now =>
    match s.fibers[fi]? with
    | some (Fiber.sweep i (Phase.awaitingExec t)) =>
      (match execSettle s.maxRetries now s.queue t outcome with
       | (q1, Sum.inl ph) =>
         { s with queue := q1, fibers := s.fibers.set fi (Fiber.sweep i ph) }
       | (q1, Sum.inr _) => finishFiber s fi q1 (some i))
    | some (Fiber.single (Phase.awaitingExec t)) =>
      (match execSettle s.maxRetries now s.queue t outcome with
       | (q1, Sum.inl ph) =>
         { s with queue := q1, fibers := s.fibers.set fi (Fiber.single ph) }
       | (q1, Sum.inr _) => finishFiber s fi q1 none)
    | _ => s
  | .timer fi now =>
    match s.fibers[fi]? with
    | some (Fiber.sweep i (Phase.retryWait t)) =>
      (match execEnter s.maxRetries now s.queue t with
       | (q1, Sum.inl ph) =>
         { s with queue := q1, fibers := s.fibers.set fi (Fiber.sweep i ph) }
       | (q1, Sum.inr _) => finishFiber s fi q1 (some i))
    | some (Fiber.single (Phase.retryWait t)) =>
      (match execEnter s.maxRetries now s.queue t with
       | (q1, Sum.inl ph) =>
         { s with queue := q1, fibers := s.fibers.set fi (Fiber.single ph) }
       | (q1, Sum.inr _) => finishFiber s fi q1 none)
    | some (Fiber.sweepSleep i) =>
      (match sweepLoop s.maxRetries now s.isPaused s.queue (i + 1) with
       | (q1, some (ci, f)) =>
         { s with queue := q1, currentTaskIndex := (ci : Int),
                  fibers := s.fibers.set fi f }
       | (q1, none) =>
         { s with queue := q1, isRunning := false, currentTaskIndex := -1,
                  fibers := s.fibers.eraseIdx fi })
    | _ => s

/-- A fresh manager: the constructor with empty storage (`loadFromStorage`
finds nothing), `maxRetries = 3`. -/
def initQM : QM :=
  { queue := []
    isRunning := false
    isPaused := false
    currentTaskIndex := -1
    maxRetries := 3
    nextId := 0
    fibers := [] }

/-- Run a sequence of interleaving events. -/
def run (s : QM) (es : List Event) : QM :=
  es.foldl step s

/-- Number of tasks currently in status `processing`. -/
def countProcessing (q : List Task) : Nat :=
  (q.filter isProcessing).length

/-- Status of the task with a given id, if present. -/
def statusOfId (q : List Task) (tid : Nat) : Option Status :=
  (q.find? (fun u => u.id == tid)).map Task.status

/-- Is the event `stopQueue`? -/
def isStopEvent : Event → Bool
  | .stopQueue => true
  | _ => false

/-- Is the event `runTask`? -/
def isRunTaskEvent : Event → Bool
  | .runTask _ _ => true
  | _ => false

/-- Events allowed while checking that a pause blocks the next task: the
environment resuming fibers plus the queue operations that are not
`resumeQueue` and do not launch or tear down a run themselves. -/
def allowedWhilePaused : Event → Bool
  | .resumeQueue => false
  | .runAll _ => false
  | .runTask _ _ => false
  | .stopQueue => false
  | _ => true

/-- Ids of tasks some fiber is currently executing. -/
def fibIds (s : QM) : List Nat :=
  s.fibers.filterMap fibId

/-! ## The single-worker invariant -/

/-- No task in the queue is `processing`. -/
def NoProc (q : List Task) : Prop :=
  ∀ u ∈ q, u.status ≠ Status.processing

/-- The queue entry with id `k` (if any) is `processing`, and nothing else
is. -/
def ProcOnly (q : List Task) (k : Nat) : Prop :=
  (∀ u ∈ q, u.id = k → u.status = Status.processing) ∧
  (∀ u ∈ q, u.status = Status.processing → u.id = k)

/-- The queue entry with id `k` (if any) is `pending` (a task parked in
its retry backoff), and no task is `processing`. -/
def PendAt (q : List Task) (k : Nat) : Prop :=
  (∀ u ∈ q, u.id = k → u.status = Status.pending) ∧ NoProc q

/-- Consistency between an `executeTask` suspension point and the queue. -/
def phOk (q : List Task) : Phase → Prop
  | .awaitingExec t => ProcOnly q t.id
  | .retryWait t => PendAt q t.id

/-- Consistency between one fiber and the queue. -/
def fibOk (q : List Task) : Fiber → Prop
  | .sweep _ ph => phOk q ph
  | .single ph => phOk q ph
  | .sweepSleep _ => NoProc q

/-- Consistency between the fiber list and the queue: at most one fiber,
and the queue's `processing` entries match its suspension point. -/
def fibsOk (q : List Task) : List Fiber → Prop
  | [] => NoProc q
  | [f] => fibOk q f
  | _ :: _ :: _ => False

/-- The id a fiber executes is below the session id counter. -/
def fibIdLt (n : Nat) : Fiber → Prop
  | .sweep _ ph => (phaseTask ph).id < n
  | .single ph => (phaseTask ph).id < n
  | .sweepSleep _ => True

/-- The reachability invariant of the machine (preserved by every event
except `stopQueue`): task ids are distinct and below the id counter,
`isRunning` tracks exactly whether an execution fiber is live, and the
fiber's suspension point determines which task (if any) is
`processing`. -/
def Inv (s : QM) : Prop :=
  (s.queue.map Task.id).Nodup ∧
  (∀ u ∈ s.queue, u.id < s.nextId) ∧
  (s.isRunning = true ↔ s.fibers ≠ []) ∧
  (∀ f ∈ s.fibers, fibIdLt s.nextId f) ∧
  fibsOk s.queue s.fibers

instance decNoProc (q : List Task) : Decidable (NoProc q) := by
  unfold NoProc; infer_instance

instance decProcOnly (q : List Task) (k : Nat) : Decidable (ProcOnly q k) := by
  unfold ProcOnly; infer_instance

instance decPendAt (q : List Task) (k : Nat) : Decidable (PendAt q k) := by
  unfold PendAt; infer_instance

instance decPhOk (q : List Task) : (ph : Phase) → Decidable (phOk q ph)
  | .awaitingExec t => inferInstanceAs (Decidable (ProcOnly q t.id))
  | .retryWait t => inferInstanceAs (Decidable (PendAt q t.id))

instance decFibOk (q : List Task) : (f : Fiber) → Decidable (fibOk q f)
  | .sweep _ ph => inferInstanceAs (Decidable (phOk q ph))
  | .single ph => inferInstanceAs (Decidable (phOk q ph))
  | .sweepSleep _ => inferInstanceAs (Decidable (NoProc q))

instance decFibsOk (q : List Task) : (l : List Fiber) → Decidable (fibsOk q l)
  | [] => inferInstanceAs (Decidable (NoProc q))
  | [f] => inferInstanceAs (Decidable (fibOk q f))
  | _ :: _ :: _ => inferInstanceAs (Decidable False)

instance decFibIdLt (n : Nat) : (f : Fiber) → Decidable (fibIdLt n f)
  | .sweep _ ph => inferInstanceAs (Decidable ((phaseTask ph).id < n))
  | .single ph => inferInstanceAs (Decidable ((phaseTask ph).id < n))
  | .sweepSleep _ => inferInstanceAs (Decidable True)

instance decInv (s : QM) : Decidable (Inv s) := by
  unfold Inv; infer_instance

/-! ## Concrete fixtures used by witnesses and counterexamples -/

/-- A task literal with the given id, type, status and retry count and
all other fields at their `addTask` defaults. -/
def mkTask (tid : Nat) (ty : String) (st : Status) (rc : Nat) : Task :=
  { id := tid
    type := ty
    params := ⟨none, none, []⟩
    status := st
    result := none
    error := none
    retryCount := rc
    createdAt := 0
    priority := 0
    startTime := none
    completedAt := none
    duration := none }

/-- A fresh `generation` task. -/
def sampleGenTask : Task := mkTask 0 "generation" Status.pending 0

/-- A task whose `type` matches no `switch` case of `executeTask`. -/
def unknownKindTask : Task := mkTask 0 "cleanup" Status.pending 0

/-- A persisted snapshot entry that was `processing` when the session
died, two retries in. -/
def processingSnapshotTask : Task := mkTask 7 "generation" Status.processing 2

/-- Two fresh tasks, then `runAll` (first task starts), then `stopQueue`
while its executor is in flight, then `runTask` on the second task.  All
five are queue operations from the claim's list. -/
def c1events : List Event :=
  [Event.addTask none none none 1, Event.addTask none none none 2,
   Event.runAll 3, Event.stopQueue, Event.runTask 1 4]

/-- Sequences of queue operations with `stopQueue` excluded. -/
def c1safeEvents : List Event :=
  [Event.addTask none none none 1, Event.addTask none none none 2,
   Event.runAll 3, Event.settle 0 (Except.error "boom") 4]

/-- Two fresh tasks, `runAll`, `stopQueue` while the first task's
executor is in flight; the first task then settles successfully and the
sweep's inter-task timer fires. -/
def c2events : List Event :=
  [Event.addTask none none none 1, Event.addTask none none none 2,
   Event.runAll 3, Event.stopQueue, Event.settle 0 (Except.ok "r") 5,
   Event.timer 0 6]

/-- One task, `runTask` on it, executor succeeds: the task is `completed`. -/
def c8events : List Event :=
  [Event.addTask none none none 1, Event.runTask 0 2,
   Event.settle 0 (Except.ok "r") 3]

/-- The state with one completed task. -/
def c8state : QM := run initQM c8events

/-- The completed task of `c8state`. -/
def c8doneTask : Task := (c8state.queue)[0]?.getD sampleGenTask

/-- One task, `runAll`, one failed attempt (task parked in retry
backoff), then `pauseQueue`: a paused state with an in-flight
`executeTask` invocation. -/
def c5baseEvents : List Event :=
  [Event.addTask none none none 1, Event.runAll 2,
   Event.settle 0 (Except.error "x") 3, Event.pauseQueue]

/-- The paused mid-execution state. -/
def c5state : QM := run initQM c5baseEvents

/-- While paused: the retry backoff elapses (task 0 goes back to
`processing`) and an unrelated task is added. -/
def c5laterEvents : List Event :=
  [Event.timer 0 9, Event.addTask none none none 10]

/-- The task that is `processing` after `c5laterEvents`. -/
def c5procTask : Task := ((run c5state c5laterEvents).queue)[0]?.getD sampleGenTask

/-- A queue whose first task is currently `processing`. -/
def c7queue : List Task :=
  [mkTask 0 "generation" Status.processing 0, mkTask 1 "generation" Status.pending 0]

/-- A small queue for the reorder witness. -/
def c10queue : List Task :=
  [mkTask 0 "generation" Status.pending 0, mkTask 1 "annotation" Status.completed 0,
   mkTask 2 "modification" Status.failed 2]

/-- A task carrying uploaded file handles in its params. -/
def uploadTask : Task :=
  { mkTask 3 "generation" Status.pending 0 with
    params := ⟨some 11, some 22, [("productName", "x")]⟩ }

/-! ## Basic lemmas -/

theorem isProcessing_iff (u : Task) :
    isProcessing u = true ↔ u.status = Status.processing := by
  cases h : u.status <;> simp [isProcessing, h]

theorem eligible_iff (u : Task) :
    eligible u = true ↔ (u.status = Status.pending ∨ u.status = Status.failed) := by
  cases h : u.status <;> simp [eligible, h]

theorem startAttempt_id (now : Nat) (t : Task) : (startAttempt now t).id = t.id := rfl

theorem startAttempt_status (now : Nat) (t : Task) :
    (startAttempt now t).status = Status.processing := rfl

theorem startAttempt_retryCount (now : Nat) (t : Task) :
    (startAttempt now t).retryCount = t.retryCount := rfl

theorem startAttempt_type (now : Nat) (t : Task) :
    (startAttempt now t).type = t.type := rfl

theorem retryBump_id (mr : Nat) (msg : String) (t : Task) :
    (retryBump mr msg t).id = t.id := rfl

theorem retryBump_status (mr : Nat) (msg : String) (t : Task) :
    (retryBump mr msg t).status = Status.pending := rfl

theorem retryBump_retryCount (mr : Nat) (msg : String) (t : Task) :
    (retryBump mr msg t).retryCount = t.retryCount + 1 := rfl

theorem retryBump_type (mr : Nat) (msg : String) (t : Task) :
    (retryBump mr msg t).type = t.type := rfl

theorem failNow_id (msg : String) (t : Task) : (failNow msg t).id = t.id := rfl

theorem failNow_status (msg : String) (t : Task) :
    (failNow msg t).status = Status.failed := rfl

theorem failNow_retryCount (msg : String) (t : Task) :
    (failNow msg t).retryCount = t.retryCount := rfl

theorem applySuccess_id (now : Nat) (r : String) (t : Task) :
    (applySuccess now r t).id = t.id := rfl

theorem applySuccess_status (now : Nat) (r : String) (t : Task) :
    (applySuccess now r t).status = Status.completed := rfl

/-! ## Lemmas about `setById` -/

theorem mem_setById {q : List Task} {t u : Task} (hu : u ∈ setById q t) :
    u = t ∨ (u ∈ q ∧ u.id ≠ t.id) := by
  unfold setById at hu
  rcases List.mem_map.mp hu with ⟨v, hv, hvu⟩
  by_cases h : v.id = t.id
  · left; rw [← hvu]; simp [h]
  · right; rw [← hvu]; simp only [h, beq_iff_eq, if_false, if_neg h]
    exact ⟨hv, h⟩

theorem map_id_setById (q : List Task) (t : Task) :
    (setById q t).map Task.id = q.map Task.id := by
  unfold setById
  rw [List.map_map]
  apply List.map_congr_left
  intro v _
  by_cases h : v.id = t.id <;> simp [Function.comp, h]

theorem length_setById (q : List Task) (t : Task) :
    (setById q t).length = q.length := by
  unfold setById; simp

theorem NoProc_setById {q : List Task} {t : Task} (hq : NoProc q)
    (ht : t.status ≠ Status.processing) : NoProc (setById q t) := by
  intro u hu
  rcases mem_setById hu with rfl | ⟨h1, _⟩
  · exact ht
  · exact hq u h1

theorem ProcOnly_setById {q : List Task} {t : Task} (hq : NoProc q)
    (ht : t.status = Status.processing) : ProcOnly (setById q t) t.id := by
  constructor
  · intro u hu _
    rcases mem_setById hu with rfl | ⟨h1, h2⟩
    · exact ht
    · exact absurd (by assumption) h2
  · intro u hu hs
    rcases mem_setById hu with rfl | ⟨h1, _⟩
    · rfl
    · exact absurd hs (hq u h1)

theorem PendAt_setById {q : List Task} {t : Task} (hq : NoProc q)
    (ht : t.status = Status.pending) : PendAt (setById q t) t.id := by
  constructor
  · intro u hu _
    rcases mem_setById hu with rfl | ⟨h1, h2⟩
    · exact ht
    · exact absurd (by assumption) h2
  · exact NoProc_setById hq (by simp [ht])

theorem NoProc_setById_of_procOnly {q : List Task} {t : Task} {k : Nat}
    (hq : ProcOnly q k) (hk : t.id = k) (ht : t.status ≠ Status.processing) :
    NoProc (setById q t) := by
  intro u hu
  rcases mem_setById hu with rfl | ⟨h1, h2⟩
  · exact ht
  · intro hs
    exact h2 ((hq.2 u h1 hs).trans hk.symm)

theorem PendAt_setById_of_procOnly {q : List Task} {t : Task} {k : Nat}
    (hq : ProcOnly q k) (hk : t.id = k) (ht : t.status = Status.pending) :
    PendAt (setById q t) k := by
  constructor
  · intro u hu hid
    rcases mem_setById hu with rfl | ⟨h1, h2⟩
    · exact ht
    · exact absurd (hid.trans hk.symm) h2
  · exact NoProc_setById_of_procOnly hq hk (by simp [ht])

theorem ProcOnly_setById_of_pendAt {q : List Task} {t : Task} {k : Nat}
    (hq : PendAt q k) (hk : t.id = k) (ht : t.status = Status.processing) :
    ProcOnly (setById q t) k := by
  constructor
  · intro u hu hid
    rcases mem_setById hu with rfl | ⟨h1, h2⟩
    · exact ht
    · exact absurd (hid.trans hk.symm) h2
  · intro u hu hs
    rcases mem_setById hu with rfl | ⟨h1, _⟩
    · exact hk
    · exact absurd hs (hq.2 u h1)

theorem eq_of_nodup_id {q : List Task} (hnd : (q.map Task.id).Nodup)
    {u v : Task} (hu : u ∈ q) (hv : v ∈ q) (h : u.id = v.id) : u = v := by
  induction q with
  | nil => cases hu
  | cons a l ih =>
    rw [List.map_cons, List.nodup_cons] at hnd
    rcases List.mem_cons.mp hu with rfl | hu' <;>
      rcases List.mem_cons.mp hv with rfl | hv'
    · rfl
    · exact absurd (h ▸ List.mem_map_of_mem Task.id hv') hnd.1
    · exact absurd (h ▸ List.mem_map_of_mem Task.id hu') hnd.1
    · exact ih hnd.2 hu' hv'

/-! ## Specifications of the synchronous segments of `executeTask` -/

theorem execEnter_spec (mr now : Nat) (q : List Task) (t : Task) (hq : NoProc q) :
    (execEnter mr now q t).1.map Task.id = q.map Task.id ∧
    (match (execEnter mr now q t).2 with
     | Sum.inl ph => phOk (execEnter mr now q t).1 ph ∧ (phaseTask ph).id = t.id
     | Sum.inr t' => NoProc (execEnter mr now q t).1 ∧ t'.status = Status.failed) := by
  unfold execEnter
  by_cases hk : knownType (startAttempt now t).type = true
  · simp only [hk, if_true]
    exact ⟨map_id_setById q _, ProcOnly_setById hq rfl, rfl⟩
  · by_cases hr : (startAttempt now t).retryCount < mr
    · simp only [hk, if_false, Bool.false_eq_true, hr, if_true, ite_true, ite_false]
      refine ⟨?_, ?_, rfl⟩
      · rw [map_id_setById, map_id_setById]
      · exact PendAt_setById_of_procOnly (ProcOnly_setById hq rfl) rfl rfl
    · simp only [hk, if_false, Bool.false_eq_true, hr, ite_false]
      refine ⟨?_, ?_, rfl⟩
      · rw [map_id_setById, map_id_setById]
      · exact NoProc_setById_of_procOnly (ProcOnly_setById hq rfl) rfl (by simp [failNow])

theorem execSettle_spec (mr now : Nat) (q : List Task) (t : Task)
    (out : Except String String) (hq : ProcOnly q t.id) :
    (execSettle mr now q t out).1.map Task.id = q.map Task.id ∧
    (match (execSettle mr now q t out).2 with
     | Sum.inl ph => phOk (execSettle mr now q t out).1 ph ∧ (phaseTask ph).id = t.id
     | Sum.inr t' => NoProc (execSettle mr now q t out).1 ∧
         (t'.status = Status.completed ∨ t'.status = Status.failed)) := by
  unfold execSettle
  cases out with
  | ok r =>
    exact ⟨map_id_setById q _,
      NoProc_setById_of_procOnly hq rfl (by simp [applySuccess]), Or.inl rfl⟩
  | error msg =>
    by_cases hr : t.retryCount < mr
    · simp only [hr, if_true, ite_true]
      exact ⟨map_id_setById q _, PendAt_setById_of_procOnly hq rfl rfl, rfl⟩
    · simp only [hr, ite_false]
      exact ⟨map_id_setById q _,
        NoProc_setById_of_procOnly hq rfl (by simp [failNow]), Or.inr rfl⟩

/-! ## `completed` tasks are not touched by execution segments -/

theorem frozen_setById {q : List Task} {t : Task}
    (hnd : (q.map Task.id).Nodup)
    (hnc : ∀ v ∈ q, v.id = t.id → v.status ≠ Status.completed) :
    ∀ u ∈ q, u.status = Status.completed →
      ∀ u' ∈ setById q t, u'.id = u.id → u'.status = Status.completed := by
  intro u hu hc u' hu' hid
  rcases mem_setById hu' with rfl | ⟨h1, _⟩
  · exact absurd hc (hnc u hu hid.symm)
  · rw [eq_of_nodup_id hnd h1 hu hid]
    exact hc

theorem execEnter_frozen (mr now : Nat) {q : List Task} {t : Task}
    (hnd : (q.map Task.id).Nodup)
    (hnc : ∀ v ∈ q, v.id = t.id → v.status ≠ Status.completed) :
    ∀ u ∈ q, u.status = Status.completed →
      ∀ u' ∈ (execEnter mr now q t).1, u'.id = u.id →
        u'.status = Status.completed := by
  intro u hu hc u' hu' hid
  have mid : ∀ w ∈ setById q (startAttempt now t), w.id = u.id →
      w.status = Status.completed :=
    @frozen_setById q (startAttempt now t) hnd hnc u hu hc
  by_cases hk : knownType (startAttempt now t).type = true
  · have hu2 : u' ∈ setById q (startAttempt now t) := by
      unfold execEnter at hu'
      simpa [hk] using hu'
    exact mid u' hu2 hid
  · by_cases hr : (startAttempt now t).retryCount < mr
    · have hu2 : u' ∈ setById (setById q (startAttempt now t))
        (retryBump mr (unknownTypeMsg (startAttempt now t).type) (startAttempt now t)) := by
        unfold execEnter at hu'
        simpa [hk, hr] using hu'
      rcases mem_setById hu2 with rfl | ⟨h1, _⟩
      · exact absurd hc (hnc u hu (by rw [← hid]; rfl))
      · exact mid u' h1 hid
    · have hu2 : u' ∈ setById (setById q (startAttempt now t))
        (failNow (unknownTypeMsg (startAttempt now t).type) (startAttempt now t)) := by
        unfold execEnter at hu'
        simpa [hk, hr] using hu'
      rcases mem_setById hu2 with rfl | ⟨h1, _⟩
      · exact absurd hc (hnc u hu (by rw [← hid]; rfl))
      · exact mid u' h1 hid

theorem execSettle_frozen (mr now : Nat) {q : List Task} {t : Task}
    (out : Except String String) (hnd : (q.map Task.id).Nodup)
    (hpo : ProcOnly q t.id) :
    ∀ u ∈ q, u.status = Status.completed →
      ∀ u' ∈ (execSettle mr now q t out).1, u'.id = u.id →
        u'.status = Status.completed := by
  have hnc : ∀ v ∈ q, v.id = t.id → v.status ≠ Status.completed := by
    intro v hv hvid
    rw [hpo.1 v hv hvid]
    simp
  intro u hu hc u' hu' hid
  cases out with
  | ok r =>
    have h1 : ∀ w ∈ setById q (applySuccess now r t), w.id = u.id →
        w.status = Status.completed :=
      @frozen_setById q (applySuccess now r t) hnd hnc u hu hc
    exact h1 u' hu' hid
  | error msg =>
    by_cases hr : t.retryCount < mr
    · have h1 : ∀ w ∈ setById q (retryBump mr msg t), w.id = u.id →
        w.status = Status.completed :=
        @frozen_setById q (retryBump mr msg t) hnd hnc u hu hc
      have hu2 : u' ∈ setById q (retryBump mr msg t) := by
        unfold execSettle at hu'
        simpa [hr] using hu'
      exact h1 u' hu2 hid
    · have h1 : ∀ w ∈ setById q (failNow msg t), w.id = u.id →
        w.status = Status.completed :=
        @frozen_setById q (failNow msg t) hnd hnc u hu hc
      have hu2 : u' ∈ setById q (failNow msg t) := by
        unfold execSettle at hu'
        simpa [hr] using hu'
      exact h1 u' hu2 hid

/-! ## The `runAll` loop -/

theorem sweepLoopAux_paused (mr now : Nat) (q : List Task) :
    ∀ fuel i, sweepLoopAux mr now true q fuel i = (q, none) := by
  intro fuel i
  cases fuel with
  | zero => rfl
  | succ n =>
    unfold sweepLoopAux
    cases hqi : q[i]? with
    | none => rfl
    | some t => simp [hqi]

theorem sweepLoopAux_spec (mr now : Nat) (q : List Task) (hq : NoProc q) :
    ∀ fuel i,
      (sweepLoopAux mr now false q fuel i).1.map Task.id = q.map Task.id ∧
      (match (sweepLoopAux mr now false q fuel i).2 with
       | none => NoProc (sweepLoopAux mr now false q fuel i).1
       | some (_, f) => fibOk (sweepLoopAux mr now false q fuel i).1 f ∧
           (∀ k, fibId f = some k → k ∈ q.map Task.id)) := by
  intro fuel
  induction fuel with
  | zero => intro i; exact ⟨rfl, hq⟩
  | succ n ih =>
    intro i
    unfold sweepLoopAux
    cases hqi : q[i]? with
    | none => exact ⟨rfl, hq⟩
    | some t =>
      by_cases he : eligible t = true
      · have hspec := execEnter_spec mr now q t hq
        rcases hE : execEnter mr now q t with ⟨q1, r⟩
        rw [hE] at hspec
        dsimp only at hspec
        cases r with
        | inl ph =>
          simp only [hqi, he, hE, Bool.false_eq_true, if_false, ite_true, ite_false]
          refine ⟨hspec.1, hspec.2.1, ?_⟩
          intro k hk
          have hk2 : (phaseTask ph).id = k := by simpa [fibId] using hk
          rw [← hk2, hspec.2.2]
          exact List.mem_map_of_mem Task.id (List.getElem?_mem hqi)
        | inr t' =>
          by_cases hl : i + 1 < q1.length
          · simp only [hqi, he, hE, Bool.false_eq_true, if_false, ite_true, ite_false, hl]
            exact ⟨hspec.1, hspec.2.1, fun k hk => by cases hk⟩
          · simp only [hqi, he, hE, Bool.false_eq_true, if_false, ite_true, ite_false, hl]
            exact ⟨hspec.1, hspec.2.1⟩
      · simpa [hqi, he] using ih (i + 1)

theorem sweepLoopAux_frozen (mr now : Nat) (q : List Task)
    (hnd : (q.map Task.id).Nodup) :
    ∀ fuel i, ∀ u ∈ q, u.status = Status.completed →
      ∀ u' ∈ (sweepLoopAux mr now false q fuel i).1, u'.id = u.id →
        u'.status = Status.completed := by
  intro fuel
  induction fuel with
  | zero =>
    intro i u hu hc u' hu' hid
    rw [eq_of_nodup_id hnd hu' hu hid]
    exact hc
  | succ n ih =>
    intro i u hu hc u' hu' hid
    rw [sweepLoopAux] at hu'
    cases hqi : q[i]? with
    | none =>
      rw [hqi] at hu'
      rw [eq_of_nodup_id hnd hu' hu hid]
      exact hc
    | some t =>
      rw [hqi] at hu'
      by_cases he : eligible t = true
      · have hnc : ∀ v ∈ q, v.id = t.id → v.status ≠ Status.completed := by
          intro v hv hvid
          rw [eq_of_nodup_id hnd hv (List.getElem?_mem hqi) hvid]
          rcases (eligible_iff t).mp he with h | h <;> simp [h]
        have hfr := execEnter_frozen mr now hnd hnc u hu hc
        rcases hE : execEnter mr now q t with ⟨q1, r⟩
        rw [hE] at hfr
        dsimp only at hfr
        cases r with
        | inl ph =>
          simp only [he, hE, Bool.false_eq_true, if_false, ite_true, ite_false] at hu'
          exact hfr u' hu' hid
        | inr t' =>
          by_cases hl : i + 1 < q1.length <;>
            simp only [he, hE, Bool.false_eq_true, if_false, ite_true, ite_false, hl] at hu' <;>
            exact hfr u' hu' hid
      · simp only [he, Bool.false_eq_true, if_false, ite_false] at hu'
        exact ih (i + 1) u hu hc u' hu' hid

/-! ## Transfer lemmas for the invariant components -/

theorem NoProc_subset {q q' : List Task} (h : ∀ u ∈ q', u ∈ q) (hq : NoProc q) :
    NoProc q' :=
  fun u hu => hq u (h u hu)

theorem ProcOnly_subset {q q' : List Task} {k : Nat} (h : ∀ u ∈ q', u ∈ q)
    (hq : ProcOnly q k) : ProcOnly q' k :=
  ⟨fun u hu hid => hq.1 u (h u hu) hid, fun u hu hs => hq.2 u (h u hu) hs⟩

theorem PendAt_subset {q q' : List Task} {k : Nat} (h : ∀ u ∈ q', u ∈ q)
    (hq : PendAt q k) : PendAt q' k :=
  ⟨fun u hu hid => hq.1 u (h u hu) hid, NoProc_subset h hq.2⟩

theorem phOk_subset {q q' : List Task} (h : ∀ u ∈ q', u ∈ q) :
    ∀ {ph : Phase}, phOk q ph → phOk q' ph
  | .awaitingExec _, hp => ProcOnly_subset h hp
  | .retryWait _, hp => PendAt_subset h hp

theorem fibOk_subset {q q' : List Task} (h : ∀ u ∈ q', u ∈ q) :
    ∀ {f : Fiber}, fibOk q f → fibOk q' f
  | .sweep _ _, hf => phOk_subset h hf
  | .single _, hf => phOk_subset h hf
  | .sweepSleep _, hf => NoProc_subset h hf

theorem fibsOk_subset {q q' : List Task} (h : ∀ u ∈ q', u ∈ q) :
    ∀ {l : List Fiber}, fibsOk q l → fibsOk q' l
  | [], hl => NoProc_subset h hl
  | [_], hl => fibOk_subset h hl
  | _ :: _ :: _, hl => hl.elim

theorem fibIdLt_mono {m n : Nat} (h : m ≤ n) :
    ∀ {f : Fiber}, fibIdLt m f → fibIdLt n f
  | .sweep _ _, hf => Nat.lt_of_lt_of_le hf h
  | .single _, hf => Nat.lt_of_lt_of_le hf h
  | .sweepSleep _, _ => trivial

theorem NoProc_append {q : List Task} {nt : Task} (hq : NoProc q)
    (hnt : nt.status = Status.pending) : NoProc (q ++ [nt]) := by
  intro u hu
  rcases List.mem_append.mp hu with h | h
  · exact hq u h
  · rw [List.mem_singleton.mp h, hnt]
    simp

theorem phOk_append {q : List Task} {ph : Phase} {nt : Task} (h : phOk q ph)
    (hst : nt.status = Status.pending) (hid : nt.id ≠ (phaseTask ph).id) :
    phOk (q ++ [nt]) ph := by
  cases ph with
  | awaitingExec t =>
    refine ⟨?_, ?_⟩
    · intro u hu huid
      rcases List.mem_append.mp hu with h' | h'
      · exact h.1 u h' huid
      · rw [List.mem_singleton.mp h'] at huid
        exact absurd huid hid
    · intro u hu hus
      rcases List.mem_append.mp hu with h' | h'
      · exact h.2 u h' hus
      · rw [List.mem_singleton.mp h'] at hus
        rw [hst] at hus
        cases hus
  | retryWait t =>
    refine ⟨?_, ?_⟩
    · intro u hu huid
      rcases List.mem_append.mp hu with h' | h'
      · exact h.1 u h' huid
      · rw [List.mem_singleton.mp h'] at huid
        exact absurd huid hid
    · intro u hu
      rcases List.mem_append.mp hu with h' | h'
      · exact h.2 u h'
      · rw [List.mem_singleton.mp h', hst]
        simp

theorem fibOk_append {q : List Task} {f : Fiber} {nt : Task} (h : fibOk q f)
    (hst : nt.status = Status.pending)
    (hid : ∀ k, fibId f = some k → nt.id ≠ k) : fibOk (q ++ [nt]) f := by
  cases f with
  | sweep i ph => exact phOk_append h hst (hid _ rfl)
  | single ph => exact phOk_append h hst (hid _ rfl)
  | sweepSleep i => exact NoProc_append h hst

theorem fibsOk_append {q : List Task} {l : List Fiber} {nt : Task}
    (h : fibsOk q l) (hst : nt.status = Status.pending)
    (hid : ∀ f ∈ l, ∀ k, fibId f = some k → nt.id ≠ k) :
    fibsOk (q ++ [nt]) l := by
  match l with
  | [] => exact NoProc_append h hst
  | [f] => exact fibOk_append h hst (hid f (List.mem_singleton.mpr rfl))
  | _ :: _ :: _ => exact h.elim

theorem bounds_of_map_id_eq {q q' : List Task} {n : Nat}
    (h : q'.map Task.id = q.map Task.id) (hq : ∀ u ∈ q, u.id < n) :
    ∀ u ∈ q', u.id < n := by
  intro u hu
  have hmem : u.id ∈ q.map Task.id := h ▸ List.mem_map_of_mem Task.id hu
  rcases List.mem_map.mp hmem with ⟨v, hv, hvid⟩
  exact hvid ▸ hq v hv

theorem lt_of_mem_map_id {q : List Task} {n k : Nat}
    (hk : k ∈ q.map Task.id) (hq : ∀ u ∈ q, u.id < n) : k < n := by
  rcases List.mem_map.mp hk with ⟨v, hv, hvid⟩
  exact hvid ▸ hq v hv

/-! ## Permutation facts about `reorderTask` -/

theorem insertAt_perm {α : Type} (n : Nat) (a : α) (l : List α) :
    (insertAt n a l).Perm (a :: l) := by
  induction l generalizing n with
  | nil =>
    cases n with
    | zero => exact List.Perm.refl _
    | succ m => exact List.Perm.refl _
  | cons b bs ih =>
    cases n with
    | zero => exact List.Perm.refl _
    | succ m => exact ((ih m).cons b).trans (List.Perm.swap a b bs)

theorem perm_cons_eraseIdx {q : List Task} {i : Nat} {t : Task}
    (h : q[i]? = some t) : q.Perm (t :: q.eraseIdx i) := by
  induction q generalizing i with
  | nil => simp at h
  | cons a l ih =>
    cases i with
    | zero =>
      rw [List.getElem?_cons_zero] at h
      cases h
      exact List.Perm.refl _
    | succ m =>
      rw [List.getElem?_cons_succ] at h
      exact ((ih h).cons a).trans (List.Perm.swap t a _)

theorem reorderTask_perm (q : List Task) (f t : Nat) :
    (reorderTask q f t).Perm q := by
  unfold reorderTask
  by_cases hft : f = t
  · simp [hft]
  · simp only [hft, if_false, ite_false]
    cases hf : q[f]? with
    | none => exact List.Perm.refl q
    | some a => exact (insertAt_perm t a _).trans (perm_cons_eraseIdx hf).symm

/-! ## The fiber list under the invariant -/

theorem fibs_singleton {q : List Task} {l : List Fiber} (hfo : fibsOk q l)
    {fi : Nat} {fib : Fiber} (h : l[fi]? = some fib) :
    l = [fib] ∧ fi = 0 ∧ fibOk q fib := by
  match l with
  | [] => simp at h
  | [f] =>
    match fi with
    | 0 =>
      rw [List.getElem?_cons_zero] at h
      cases h
      exact ⟨rfl, rfl, hfo⟩
    | n + 1 =>
      rw [List.getElem?_cons_succ] at h
      simp at h
  | _ :: _ :: _ => exact hfo.elim

/-! ## Preservation of the invariant -/

theorem fibers_nil_of_not_running {s : QM} (hrf : s.isRunning = true ↔ s.fibers ≠ [])
    (h : s.isRunning = false) : s.fibers = [] := by
  by_contra hne
  rw [hrf.mpr hne] at h
  cases h

theorem fibIdLt_get {n : Nat} {f : Fiber} {k : Nat} (h : fibIdLt n f)
    (hk : fibId f = some k) : k < n := by
  cases f with
  | sweep j ph =>
    have hkk : (phaseTask ph).id = k := by simpa [fibId] using hk
    exact hkk ▸ h
  | single ph =>
    have hkk : (phaseTask ph).id = k := by simpa [fibId] using hk
    exact hkk ▸ h
  | sweepSleep j => cases hk

theorem fibIdLt_of_ids {q : List Task} {n : Nat} {f : Fiber}
    (hb : ∀ k, fibId f = some k → k ∈ q.map Task.id) (hq : ∀ u ∈ q, u.id < n) :
    fibIdLt n f := by
  cases f with
  | sweep j ph => exact lt_of_mem_map_id (hb _ rfl) hq
  | single ph => exact lt_of_mem_map_id (hb _ rfl) hq
  | sweepSleep j => trivial

theorem inv_step (s : QM) (e : Event) (hs : Inv s) (he : isStopEvent e = false) :
    Inv (step s e) := by
  obtain ⟨hnd, hlt, hrf, hflt, hfo⟩ := hs
  cases e with
  | addTask ty ps pr now =>
    refine ⟨?_, ?_, hrf, ?_, ?_⟩
    · dsimp only [step]
      rw [List.map_append, List.map_cons, List.map_nil]
      refine List.Nodup.append hnd (List.nodup_singleton _) ?_
      intro a ha hb
      rw [List.mem_singleton.mp hb] at ha
      exact absurd (lt_of_mem_map_id ha hlt) (Nat.lt_irrefl _)
    · dsimp only [step]
      intro u hu
      rcases List.mem_append.mp hu with h | h
      · exact Nat.lt_succ_of_lt (hlt u h)
      · rw [List.mem_singleton.mp h]
        exact Nat.lt_succ_self _
    · dsimp only [step]
      intro f hf
      exact fibIdLt_mono (Nat.le_succ _) (hflt f hf)
    · dsimp only [step]
      refine fibsOk_append hfo rfl ?_
      intro f hf k hk
      exact Nat.ne_of_gt (fibIdLt_get (hflt f hf) hk)
  | removeTask tid =>
    dsimp only [step]
    split
    · exact ⟨hnd, hlt, hrf, hflt, hfo⟩
    · rename_i i hfind
      split
      · exact ⟨hnd, hlt, hrf, hflt, hfo⟩
      · rename_i t hqi
        split
        · exact ⟨hnd, hlt, hrf, hflt, hfo⟩
        · rename_i hp
          have hsub : ∀ u ∈ s.queue.eraseIdx i, u ∈ s.queue :=
            fun u hu => (List.eraseIdx_sublist s.queue i).subset hu
          exact ⟨List.Nodup.sublist ((List.eraseIdx_sublist s.queue i).map Task.id) hnd,
            fun u hu => hlt u (hsub u hu), hrf, hflt, fibsOk_subset hsub hfo⟩
  | reorderTask fromIndex toIndex =>
    have hperm := reorderTask_perm s.queue fromIndex toIndex
    have hsub : ∀ u ∈ reorderTask s.queue fromIndex toIndex, u ∈ s.queue :=
      fun u hu => hperm.mem_iff.mp hu
    exact ⟨(hperm.map Task.id).symm.nodup hnd,
      fun u hu => hlt u (hsub u hu), hrf, hflt, fibsOk_subset hsub hfo⟩
  | runAll now =>
    dsimp only [step]
    split
    · exact ⟨hnd, hlt, hrf, hflt, hfo⟩
    · rename_i hr
      split
      · exact ⟨hnd, hlt, hrf, hflt, hfo⟩
      · rename_i hemp
        have hr' : s.isRunning = false := by
          cases h : s.isRunning
          · rfl
          · exact absurd h hr
        have hfe : s.fibers = [] := fibers_nil_of_not_running hrf hr'
        have hnp : NoProc s.queue := by rw [hfe] at hfo; exact hfo
        split
        · rename_i q1 ci f hSL
          have hSL' : sweepLoopAux s.maxRetries now false s.queue
              (s.queue.length - 0) 0 = (q1, some (ci, f)) := hSL
          have hspec := sweepLoopAux_spec s.maxRetries now s.queue hnp
            (s.queue.length - 0) 0
          rw [hSL'] at hspec
          dsimp only at hspec
          have happ : s.fibers ++ [f] = [f] := by rw [hfe]; rfl
          refine ⟨hspec.1 ▸ hnd, bounds_of_map_id_eq hspec.1 hlt, ?_, ?_, ?_⟩
          · rw [happ]
            simp
          · rw [happ]
            intro g hg
            have hgf : g = f := by simpa using hg
            subst hgf
            exact fibIdLt_of_ids hspec.2.2 hlt
          · rw [happ]
            exact hspec.2.1
        · rename_i q1 hSL
          have hSL' : sweepLoopAux s.maxRetries now false s.queue
              (s.queue.length - 0) 0 = (q1, none) := hSL
          have hspec := sweepLoopAux_spec s.maxRetries now s.queue hnp
            (s.queue.length - 0) 0
          rw [hSL'] at hspec
          dsimp only at hspec
          refine ⟨hspec.1 ▸ hnd, bounds_of_map_id_eq hspec.1 hlt, ?_, ?_, ?_⟩
          · rw [hfe]
            simp
          · rw [hfe]
            intro g hg
            cases hg
          · rw [hfe]
            exact hspec.2
  | runTask tid now =>
    dsimp only [step]
    split
    · exact ⟨hnd, hlt, hrf, hflt, hfo⟩
    · rename_i t hfind
      split
      · exact ⟨hnd, hlt, hrf, hflt, hfo⟩
      · rename_i hr
        have hr' : s.isRunning = false := by
          cases h : s.isRunning
          · rfl
          · exact absurd h hr
        have hfe : s.fibers = [] := fibers_nil_of_not_running hrf hr'
        have hnp : NoProc s.queue := by rw [hfe] at hfo; exact hfo
        have htm : t ∈ s.queue := List.mem_of_find?_eq_some hfind
        split
        · rename_i q1 ph hE
          have hspec := execEnter_spec s.maxRetries now s.queue t hnp
          rw [hE] at hspec
          dsimp only at hspec
          have happ : s.fibers ++ [Fiber.single ph] = [Fiber.single ph] := by
            rw [hfe]; rfl
          refine ⟨hspec.1 ▸ hnd, bounds_of_map_id_eq hspec.1 hlt, ?_, ?_, ?_⟩
          · rw [happ]
            simp
          · rw [happ]
            intro g hg
            have hgf : g = Fiber.single ph := by simpa using hg
            subst hgf
            show (phaseTask ph).id < s.nextId
            rw [hspec.2.2]
            exact hlt t htm
          · rw [happ]
            exact hspec.2.1
        · rename_i q1 t' hE
          have hspec := execEnter_spec s.maxRetries now s.queue t hnp
          rw [hE] at hspec
          dsimp only at hspec
          exact ⟨hspec.1 ▸ hnd, bounds_of_map_id_eq hspec.1 hlt, hrf, hflt,
            by rw [hfe]; exact hspec.2.1⟩
  | pauseQueue =>
    dsimp only [step]
    split
    · exact ⟨hnd, hlt, hrf, hflt, hfo⟩
    · exact ⟨hnd, hlt, hrf, hflt, hfo⟩
  | resumeQueue =>
    dsimp only [step]
    split
    · exact ⟨hnd, hlt, hrf, hflt, hfo⟩
    · exact ⟨hnd, hlt, hrf, hflt, hfo⟩
  | stopQueue => cases he
  | settle fi out now =>
    dsimp only [step]
    split
    · rename_i i t hfi
      obtain ⟨hfl, rfl, hok⟩ := fibs_singleton hfo hfi
      have hfne : s.fibers ≠ [] := by rw [hfl]; simp
      have hrun : s.isRunning = true := hrf.mpr hfne
      have hpo : ProcOnly s.queue t.id := hok
      have hspec := execSettle_spec s.maxRetries now s.queue t out hpo
      split
      · rename_i q1 ph hE
        rw [hE] at hspec
        dsimp only at hspec
        have hset : s.fibers.set 0 (Fiber.sweep i ph) = [Fiber.sweep i ph] := by
          rw [hfl]; rfl
        refine ⟨hspec.1 ▸ hnd, bounds_of_map_id_eq hspec.1 hlt, ?_, ?_, ?_⟩
        · rw [hset, hrun]
          simp
        · rw [hset]
          intro g hg
          have hgf : g = Fiber.sweep i ph := by simpa using hg
          subst hgf
          show (phaseTask ph).id < s.nextId
          rw [hspec.2.2]
          exact fibIdLt_get (hflt (Fiber.sweep i (Phase.awaitingExec t)) (by rw [hfl]; simp)) rfl
        · rw [hset]
          exact hspec.2.1
      · rename_i q1 t' hE
        rw [hE] at hspec
        dsimp only at hspec
        dsimp only [finishFiber]
        split
        · rename_i hl
          have hset : s.fibers.set 0 (Fiber.sweepSleep i) = [Fiber.sweepSleep i] := by
            rw [hfl]; rfl
          refine ⟨hspec.1 ▸ hnd, bounds_of_map_id_eq hspec.1 hlt, ?_, ?_, ?_⟩
          · rw [hset, hrun]
            simp
          · rw [hset]
            intro g hg
            have hgf : g = Fiber.sweepSleep i := by simpa using hg
            subst hgf
            trivial
          · rw [hset]
            exact hspec.2.1
        · rename_i hl
          have her : s.fibers.eraseIdx 0 = [] := by rw [hfl]; rfl
          refine ⟨hspec.1 ▸ hnd, bounds_of_map_id_eq hspec.1 hlt, ?_, ?_, ?_⟩
          · rw [her]
            simp
          · rw [her]
            intro g hg
            cases hg
          · rw [her]
            exact hspec.2.1
    · rename_i t hfi
      obtain ⟨hfl, rfl, hok⟩ := fibs_singleton hfo hfi
      have hfne : s.fibers ≠ [] := by rw [hfl]; simp
      have hrun : s.isRunning = true := hrf.mpr hfne
      have hpo : ProcOnly s.queue t.id := hok
      have hspec := execSettle_spec s.maxRetries now s.queue t out hpo
      split
      · rename_i q1 ph hE
        rw [hE] at hspec
        dsimp only at hspec
        have hset : s.fibers.set 0 (Fiber.single ph) = [Fiber.single ph] := by
          rw [hfl]; rfl
        refine ⟨hspec.1 ▸ hnd, bounds_of_map_id_eq hspec.1 hlt, ?_, ?_, ?_⟩
        · rw [hset, hrun]
          simp
        · rw [hset]
          intro g hg
          have hgf : g = Fiber.single ph := by simpa using hg
          subst hgf
          show (phaseTask ph).id < s.nextId
          rw [hspec.2.2]
          exact fibIdLt_get (hflt (Fiber.single (Phase.awaitingExec t)) (by rw [hfl]; simp)) rfl
        · rw [hset]
          exact hspec.2.1
      · rename_i q1 t' hE
        rw [hE] at hspec
        dsimp only at hspec
        dsimp only [finishFiber]
        have her : s.fibers.eraseIdx 0 = [] := by rw [hfl]; rfl
        refine ⟨hspec.1 ▸ hnd, bounds_of_map_id_eq hspec.1 hlt, ?_, ?_, ?_⟩
        · rw [her]
          simp
        · rw [her]
          intro g hg
          cases hg
        · rw [her]
          exact hspec.2.1
    · exact ⟨hnd, hlt, hrf, hflt, hfo⟩
  | timer fi now =>
    dsimp only [step]
    split
    · rename_i i t hfi
      obtain ⟨hfl, rfl, hok⟩ := fibs_singleton hfo hfi
      have hfne : s.fibers ≠ [] := by rw [hfl]; simp
      have hrun : s.isRunning = true := hrf.mpr hfne
      have hpa : PendAt s.queue t.id := hok
      have hspec := execEnter_spec s.maxRetries now s.queue t hpa.2
      split
      · rename_i q1 ph hE
        rw [hE] at hspec
        dsimp only at hspec
        have hset : s.fibers.set 0 (Fiber.sweep i ph) = [Fiber.sweep i ph] := by
          rw [hfl]; rfl
        refine ⟨hspec.1 ▸ hnd, bounds_of_map_id_eq hspec.1 hlt, ?_, ?_, ?_⟩
        · rw [hset, hrun]
          simp
        · rw [hset]
          intro g hg
          have hgf : g = Fiber.sweep i ph := by simpa using hg
          subst hgf
          show (phaseTask ph).id < s.nextId
          rw [hspec.2.2]
          exact fibIdLt_get (hflt (Fiber.sweep i (Phase.retryWait t)) (by rw [hfl]; simp)) rfl
        · rw [hset]
          exact hspec.2.1
      · rename_i q1 t' hE
        rw [hE] at hspec
        dsimp only at hspec
        dsimp only [finishFiber]
        split
        · rename_i hl
          have hset : s.fibers.set 0 (Fiber.sweepSleep i) = [Fiber.sweepSleep i] := by
            rw [hfl]; rfl
          refine ⟨hspec.1 ▸ hnd, bounds_of_map_id_eq hspec.1 hlt, ?_, ?_, ?_⟩
          · rw [hset, hrun]
            simp
          · rw [hset]
            intro g hg
            have hgf : g = Fiber.sweepSleep i := by simpa using hg
            subst hgf
            trivial
          · rw [hset]
            exact hspec.2.1
        · rename_i hl
          have her : s.fibers.eraseIdx 0 = [] := by rw [hfl]; rfl
          refine ⟨hspec.1 ▸ hnd, bounds_of_map_id_eq hspec.1 hlt, ?_, ?_, ?_⟩
          · rw [her]
            simp
          · rw [her]
            intro g hg
            cases hg
          · rw [her]
            exact hspec.2.1
    · rename_i t hfi
      obtain ⟨hfl, rfl, hok⟩ := fibs_singleton hfo hfi
      have hfne : s.fibers ≠ [] := by rw [hfl]; simp
      have hrun : s.isRunning = true := hrf.mpr hfne
      have hpa : PendAt s.queue t.id := hok
      have hspec := execEnter_spec s.maxRetries now s.queue t hpa.2
      split
      · rename_i q1 ph hE
        rw [hE] at hspec
        dsimp only at hspec
        have hset : s.fibers.set 0 (Fiber.single ph) = [Fiber.single ph] := by
          rw [hfl]; rfl
        refine ⟨hspec.1 ▸ hnd, bounds_of_map_id_eq hspec.1 hlt, ?_, ?_, ?_⟩
        · rw [hset, hrun]
          simp
        · rw [hset]
          intro g hg
          have hgf : g = Fiber.single ph := by simpa using hg
          subst hgf
          show (phaseTask ph).id < s.nextId
          rw [hspec.2.2]
          exact fibIdLt_get (hflt (Fiber.single (Phase.retryWait t)) (by rw [hfl]; simp)) rfl
        · rw [hset]
          exact hspec.2.1
      · rename_i q1 t' hE
        rw [hE] at hspec
        dsimp only at hspec
        dsimp only [finishFiber]
        have her : s.fibers.eraseIdx 0 = [] := by rw [hfl]; rfl
        refine ⟨hspec.1 ▸ hnd, bounds_of_map_id_eq hspec.1 hlt, ?_, ?_, ?_⟩
        · rw [her]
          simp
        · rw [her]
          intro g hg
          cases hg
        · rw [her]
          exact hspec.2.1
    · rename_i i hfi
      obtain ⟨hfl, rfl, hok⟩ := fibs_singleton hfo hfi
      have hfne : s.fibers ≠ [] := by rw [hfl]; simp
      have hrun : s.isRunning = true := hrf.mpr hfne
      have hnp : NoProc s.queue := hok
      cases hpz : s.isPaused with
      | true =>
        rw [show sweepLoop s.maxRetries now true s.queue (i + 1)
          = (s.queue, none) from sweepLoopAux_paused s.maxRetries now s.queue
            (s.queue.length - (i + 1)) (i + 1)]
        have her : s.fibers.eraseIdx 0 = [] := by rw [hfl]; rfl
        refine ⟨hnd, hlt, ?_, ?_, ?_⟩
        · rw [her]
          simp
        · rw [her]
          intro g hg
          cases hg
        · rw [her]
          exact hnp
      | false =>
        split
        · rename_i q1 ci f hSL
          have hSL' : sweepLoopAux s.maxRetries now false s.queue
              (s.queue.length - (i + 1)) (i + 1) = (q1, some (ci, f)) := hSL
          have hspec := sweepLoopAux_spec s.maxRetries now s.queue hnp
            (s.queue.length - (i + 1)) (i + 1)
          rw [hSL'] at hspec
          dsimp only at hspec
          have hset : s.fibers.set 0 f = [f] := by rw [hfl]; rfl
          refine ⟨hspec.1 ▸ hnd, bounds_of_map_id_eq hspec.1 hlt, ?_, ?_, ?_⟩
          · rw [hset, hrun]
            simp
          · rw [hset]
            intro g hg
            have hgf : g = f := by simpa using hg
            subst hgf
            exact fibIdLt_of_ids hspec.2.2 hlt
          · rw [hset]
            exact hspec.2.1
        · rename_i q1 hSL
          have hSL' : sweepLoopAux s.maxRetries now false s.queue
              (s.queue.length - (i + 1)) (i + 1) = (q1, none) := hSL
          have hspec := sweepLoopAux_spec s.maxRetries now s.queue hnp
            (s.queue.length - (i + 1)) (i + 1)
          rw [hSL'] at hspec
          dsimp only at hspec
          have her : s.fibers.eraseIdx 0 = [] := by rw [hfl]; rfl
          refine ⟨hspec.1 ▸ hnd, bounds_of_map_id_eq hspec.1 hlt, ?_, ?_, ?_⟩
          · rw [her]
            simp
          · rw [her]
            intro g hg
            cases hg
          · rw [her]
            exact hspec.2
    · exact ⟨hnd, hlt, hrf, hflt, hfo⟩


theorem inv_initQM : Inv initQM := by decide

theorem inv_run (es : List Event) (hns : ∀ e ∈ es, isStopEvent e = false)
    (s : QM) (hs : Inv s) : Inv (run s es) := by
  induction es generalizing s with
  | nil => exact hs
  | cons e es ih =>
    exact ih (fun e' he' => hns e' (List.mem_cons_of_mem e he'))
      (step s e) (inv_step s e hs (hns e (List.mem_cons_self e es)))

theorem count_zero_of_noProc {q : List Task} (h : NoProc q) :
    countProcessing q = 0 := by
  unfold countProcessing
  rw [List.filter_eq_nil_iff.mpr, List.length_nil]
  intro u hu hup
  exact h u hu ((isProcessing_iff u).mp hup)

theorem count_le_one_of_same_id {q : List Task} {k : Nat}
    (hnd : (q.map Task.id).Nodup)
    (h : ∀ u ∈ q, u.status = Status.processing → u.id = k) :
    (q.filter isProcessing).length ≤ 1 := by
  induction q with
  | nil => simp
  | cons a l ih =>
    rw [List.map_cons, List.nodup_cons] at hnd
    by_cases ha : isProcessing a = true
    · rw [List.filter_cons_of_pos ha]
      have hak : a.id = k := h a (List.mem_cons_self a l) ((isProcessing_iff a).mp ha)
      have hnil : l.filter isProcessing = [] := by
        rw [List.filter_eq_nil_iff]
        intro u hu hup
        have huk : u.id = k := h u (List.mem_cons_of_mem a hu)
          ((isProcessing_iff u).mp hup)
        have : a.id = u.id := hak.trans huk.symm
        exact hnd.1 (this ▸ List.mem_map_of_mem Task.id hu)
      rw [hnil]
      exact Nat.le_refl 1
    · rw [List.filter_cons_of_neg ha]
      exact ih hnd.2 (fun u hu => h u (List.mem_cons_of_mem a hu))

/-- The single-worker invariant proper, as a consequence of `Inv`: at most
one task is `processing`, and at most one `executeTask` invocation (fiber)
is live. -/
theorem inv_count {s : QM} (hs : Inv s) :
    countProcessing s.queue ≤ 1 ∧ s.fibers.length ≤ 1 := by
  obtain ⟨hnd, hlt, hrf, hflt, hfo⟩ := hs
  rcases hfl : s.fibers with _ | ⟨f, rest⟩
  · rw [hfl] at hfo
    exact ⟨by rw [count_zero_of_noProc hfo]; exact Nat.zero_le 1, by simp⟩
  · cases rest with
    | nil =>
      rw [hfl] at hfo
      refine ⟨?_, by simp⟩
      cases f with
      | sweep i ph =>
        cases ph with
        | awaitingExec t => exact count_le_one_of_same_id hnd hfo.2
        | retryWait t => rw [count_zero_of_noProc hfo.2]; exact Nat.zero_le 1
      | single ph =>
        cases ph with
        | awaitingExec t => exact count_le_one_of_same_id hnd hfo.2
        | retryWait t => rw [count_zero_of_noProc hfo.2]; exact Nat.zero_le 1
      | sweepSleep i => rw [count_zero_of_noProc hfo]; exact Nat.zero_le 1
    | cons g l =>
      rw [hfl] at hfo
      exact hfo.elim

/-- Under the invariant, any `processing` task is the one some live fiber
is executing. -/
theorem proc_sub_fibIds {s : QM} (hs : Inv s) :
    ∀ u ∈ s.queue, u.status = Status.processing → u.id ∈ fibIds s := by
  obtain ⟨hnd, hlt, hrf, hflt, hfo⟩ := hs
  intro u hu hup
  rcases hfl : s.fibers with _ | ⟨f, rest⟩
  · rw [hfl] at hfo
    exact absurd hup (hfo u hu)
  · cases rest with
    | nil =>
      rw [hfl] at hfo
      unfold fibIds
      rw [hfl]
      cases f with
      | sweep i ph =>
        cases ph with
        | awaitingExec t =>
          have : u.id = t.id := hfo.2 u hu hup
          simp [fibId, List.filterMap, this, phaseTask]
        | retryWait t => exact absurd hup (hfo.2 u hu)
      | single ph =>
        cases ph with
        | awaitingExec t =>
          have : u.id = t.id := hfo.2 u hu hup
          simp [fibId, List.filterMap, this, phaseTask]
        | retryWait t => exact absurd hup (hfo.2 u hu)
      | sweepSleep i => exact absurd hup (hfo u hu)
    | cons g l =>
      rw [hfl] at hfo
      exact hfo.elim

theorem mem_fibIds_iff {s : QM} {k : Nat} :
    k ∈ fibIds s ↔ ∃ f ∈ s.fibers, fibId f = some k := by
  unfold fibIds
  simp [List.mem_filterMap]

theorem allowed_not_stop {e : Event} (h : allowedWhilePaused e = true) :
    isStopEvent e = false := by
  cases e <;> simp_all [allowedWhilePaused, isStopEvent]

/-- While the pause flag is up, no event other than `resumeQueue`,
`runAll`, `runTask`, `stopQueue` clears it, and the set of tasks being
executed can only shrink: the paused sweep never picks up a new task. -/
theorem pause_step (s : QM) (e : Event) (hs : Inv s)
    (hp : s.isPaused = true) (ha : allowedWhilePaused e = true) :
    (step s e).isPaused = true ∧ ∀ k ∈ fibIds (step s e), k ∈ fibIds s := by
  obtain ⟨hnd, hlt, hrf, hflt, hfo⟩ := hs
  cases e with
  | addTask ty ps pr now => exact ⟨hp, fun k hk => hk⟩
  | removeTask tid =>
    dsimp only [step]
    split
    · exact ⟨hp, fun k hk => hk⟩
    · split
      · exact ⟨hp, fun k hk => hk⟩
      · split
        · exact ⟨hp, fun k hk => hk⟩
        · exact ⟨hp, fun k hk => hk⟩
  | reorderTask f t => exact ⟨hp, fun k hk => hk⟩
  | runAll now => exact absurd ha (by simp [allowedWhilePaused])
  | runTask tid now => exact absurd ha (by simp [allowedWhilePaused])
  | resumeQueue => exact absurd ha (by decide)
  | stopQueue => exact absurd ha (by decide)
  | pauseQueue =>
    dsimp only [step]
    split
    · exact ⟨rfl, fun k hk => hk⟩
    · exact ⟨hp, fun k hk => hk⟩
  | settle fi out now =>
    dsimp only [step]
    split
    · rename_i i t hfi
      obtain ⟨hfl, rfl, hok⟩ := fibs_singleton hfo hfi
      have hspec := execSettle_spec s.maxRetries now s.queue t out hok
      split
      · rename_i q1 ph hE
        rw [hE] at hspec
        dsimp only at hspec
        refine ⟨hp, ?_⟩
        intro k hk
        rw [mem_fibIds_iff] at hk ⊢
        obtain ⟨g, hg, hgid⟩ := hk
        dsimp only at hg
        rw [hfl] at hg
        have hgX : g = Fiber.sweep i ph := by simpa using hg
        subst hgX
        have hk2 : (phaseTask ph).id = k := by simpa [fibId] using hgid
        refine ⟨Fiber.sweep i (Phase.awaitingExec t), by rw [hfl]; simp, ?_⟩
        show some (phaseTask (Phase.awaitingExec t)).id = some k
        rw [← hk2, hspec.2.2]
        rfl
      · rename_i q1 t' hE
        dsimp only [finishFiber]
        split
        · refine ⟨hp, ?_⟩
          intro k hk
          rw [mem_fibIds_iff] at hk
          obtain ⟨g, hg, hgid⟩ := hk
          dsimp only at hg
          rw [hfl] at hg
          have hgX : g = Fiber.sweepSleep i := by simpa using hg
          subst hgX
          cases hgid
        · refine ⟨hp, ?_⟩
          intro k hk
          rw [mem_fibIds_iff] at hk
          obtain ⟨g, hg, hgid⟩ := hk
          dsimp only at hg
          rw [hfl] at hg
          simp at hg
    · rename_i t hfi
      obtain ⟨hfl, rfl, hok⟩ := fibs_singleton hfo hfi
      have hspec := execSettle_spec s.maxRetries now s.queue t out hok
      split
      · rename_i q1 ph hE
        rw [hE] at hspec
        dsimp only at hspec
        refine ⟨hp, ?_⟩
        intro k hk
        rw [mem_fibIds_iff] at hk ⊢
        obtain ⟨g, hg, hgid⟩ := hk
        dsimp only at hg
        rw [hfl] at hg
        have hgX : g = Fiber.single ph := by simpa using hg
        subst hgX
        have hk2 : (phaseTask ph).id = k := by simpa [fibId] using hgid
        refine ⟨Fiber.single (Phase.awaitingExec t), by rw [hfl]; simp, ?_⟩
        show some (phaseTask (Phase.awaitingExec t)).id = some k
        rw [← hk2, hspec.2.2]
        rfl
      · rename_i q1 t' hE
        dsimp only [finishFiber]
        refine ⟨hp, ?_⟩
        intro k hk
        rw [mem_fibIds_iff] at hk
        obtain ⟨g, hg, hgid⟩ := hk
        dsimp only at hg
        rw [hfl] at hg
        simp at hg
    · exact ⟨hp, fun k hk => hk⟩
  | timer fi now =>
    dsimp only [step]
    split
    · rename_i i t hfi
      obtain ⟨hfl, rfl, hok⟩ := fibs_singleton hfo hfi
      have hpa : PendAt s.queue t.id := hok
      have hspec := execEnter_spec s.maxRetries now s.queue t hpa.2
      split
      · rename_i q1 ph hE
        rw [hE] at hspec
        dsimp only at hspec
        refine ⟨hp, ?_⟩
        intro k hk
        rw [mem_fibIds_iff] at hk ⊢
        obtain ⟨g, hg, hgid⟩ := hk
        dsimp only at hg
        rw [hfl] at hg
        have hgX : g = Fiber.sweep i ph := by simpa using hg
        subst hgX
        have hk2 : (phaseTask ph).id = k := by simpa [fibId] using hgid
        refine ⟨Fiber.sweep i (Phase.retryWait t), by rw [hfl]; simp, ?_⟩
        show some (phaseTask (Phase.retryWait t)).id = some k
        rw [← hk2, hspec.2.2]
        rfl
      · rename_i q1 t' hE
        dsimp only [finishFiber]
        split
        · refine ⟨hp, ?_⟩
          intro k hk
          rw [mem_fibIds_iff] at hk
          obtain ⟨g, hg, hgid⟩ := hk
          dsimp only at hg
          rw [hfl] at hg
          have hgX : g = Fiber.sweepSleep i := by simpa using hg
          subst hgX
          cases hgid
        · refine ⟨hp, ?_⟩
          intro k hk
          rw [mem_fibIds_iff] at hk
          obtain ⟨g, hg, hgid⟩ := hk
          dsimp only at hg
          rw [hfl] at hg
          simp at hg
    · rename_i t hfi
      obtain ⟨hfl, rfl, hok⟩ := fibs_singleton hfo hfi
      have hpa : PendAt s.queue t.id := hok
      have hspec := execEnter_spec s.maxRetries now s.queue t hpa.2
      split
      · rename_i q1 ph hE
        rw [hE] at hspec
        dsimp only at hspec
        refine ⟨hp, ?_⟩
        intro k hk
        rw [mem_fibIds_iff] at hk ⊢
        obtain ⟨g, hg, hgid⟩ := hk
        dsimp only at hg
        rw [hfl] at hg
        have hgX : g = Fiber.single ph := by simpa using hg
        subst hgX
        have hk2 : (phaseTask ph).id = k := by simpa [fibId] using hgid
        refine ⟨Fiber.single (Phase.retryWait t), by rw [hfl]; simp, ?_⟩
        show some (phaseTask (Phase.retryWait t)).id = some k
        rw [← hk2, hspec.2.2]
        rfl
      · rename_i q1 t' hE
        dsimp only [finishFiber]
        refine ⟨hp, ?_⟩
        intro k hk
        rw [mem_fibIds_iff] at hk
        obtain ⟨g, hg, hgid⟩ := hk
        dsimp only at hg
        rw [hfl] at hg
        simp at hg
    · rename_i i hfi
      obtain ⟨hfl, rfl, hok⟩ := fibs_singleton hfo hfi
      rw [hp]
      rw [show sweepLoop s.maxRetries now true s.queue (i + 1)
        = (s.queue, none) from sweepLoopAux_paused s.maxRetries now s.queue
          (s.queue.length - (i + 1)) (i + 1)]
      refine ⟨rfl, ?_⟩
      intro k hk
      rw [mem_fibIds_iff] at hk
      obtain ⟨g, hg, hgid⟩ := hk
      dsimp only at hg
      rw [hfl] at hg
      simp at hg
    · exact ⟨hp, fun k hk => hk⟩

/-- Trace version: along any interleaving of allowed events from a paused
state, the pause flag stays up and the executing-task set never grows. -/
theorem pause_run (s : QM) (es : List Event) (hs : Inv s) (hp : s.isPaused = true)
    (ha : ∀ e ∈ es, allowedWhilePaused e = true) :
    Inv (run s es) ∧ (run s es).isPaused = true ∧
      ∀ k ∈ fibIds (run s es), k ∈ fibIds s := by
  induction es generalizing s with
  | nil => exact ⟨hs, hp, fun k hk => hk⟩
  | cons e es ih =>
    have hae : allowedWhilePaused e = true := ha e (List.mem_cons_self e es)
    have h1 := inv_step s e hs (allowed_not_stop hae)
    have h2 := pause_step s e hs hp hae
    have ih' := ih (step s e) h1 h2.1 (fun e' he' => ha e' (List.mem_cons_of_mem e he'))
    exact ⟨ih'.1, ih'.2.1, fun k hk => h2.2 k (ih'.2.2 k hk)⟩

/-- Every event except `runTask` leaves `completed` tasks `completed`
(from any state satisfying the single-worker invariant): the sweep only
starts `pending`/`failed` tasks, settle/retry resumptions only touch the
task their fiber is executing, and the remaining operations never change
a status. -/
theorem completed_frozen_step (s : QM) (e : Event) (hs : Inv s)
    (he : isRunTaskEvent e = false) :
    ∀ u ∈ s.queue, u.status = Status.completed →
      ∀ u' ∈ (step s e).queue, u'.id = u.id → u'.status = Status.completed := by
  obtain ⟨hnd, hlt, hrf, hflt, hfo⟩ := hs
  intro u hu hc u' hu' hid
  cases e with
  | addTask ty ps pr now =>
    rcases List.mem_append.mp hu' with h | h
    · rw [eq_of_nodup_id hnd h hu hid]
      exact hc
    · exfalso
      have h2 : u.id = s.nextId := by rw [← hid, List.mem_singleton.mp h]
      exact absurd (h2 ▸ hlt u hu) (Nat.lt_irrefl _)
  | removeTask tid =>
    dsimp only [step] at hu'
    split at hu'
    · rw [eq_of_nodup_id hnd hu' hu hid]
      exact hc
    · split at hu'
      · rw [eq_of_nodup_id hnd hu' hu hid]
        exact hc
      · split at hu'
        · rw [eq_of_nodup_id hnd hu' hu hid]
          exact hc
        · have h2 : u' ∈ s.queue := (List.eraseIdx_sublist s.queue _).subset hu'
          rw [eq_of_nodup_id hnd h2 hu hid]
          exact hc
  | reorderTask fromIndex toIndex =>
    have h2 : u' ∈ s.queue := (reorderTask_perm s.queue fromIndex toIndex).mem_iff.mp hu'
    rw [eq_of_nodup_id hnd h2 hu hid]
    exact hc
  | runAll now =>
    dsimp only [step] at hu'
    split at hu'
    · rw [eq_of_nodup_id hnd hu' hu hid]
      exact hc
    · split at hu'
      · rw [eq_of_nodup_id hnd hu' hu hid]
        exact hc
      · split at hu'
        · rename_i q1 ci f hSL
          dsimp only at hu'
          have hfr := sweepLoopAux_frozen s.maxRetries now s.queue hnd
            (s.queue.length - 0) 0 u hu hc
          refine hfr u' ?_ hid
          rw [show sweepLoopAux s.maxRetries now false s.queue
            (s.queue.length - 0) 0 = (q1, some (ci, f)) from hSL]
          exact hu'
        · rename_i q1 hSL
          dsimp only at hu'
          have hfr := sweepLoopAux_frozen s.maxRetries now s.queue hnd
            (s.queue.length - 0) 0 u hu hc
          refine hfr u' ?_ hid
          rw [show sweepLoopAux s.maxRetries now false s.queue
            (s.queue.length - 0) 0 = (q1, none) from hSL]
          exact hu'
  | runTask tid now => simp [isRunTaskEvent] at he
  | pauseQueue =>
    dsimp only [step] at hu'
    split at hu' <;> (rw [eq_of_nodup_id hnd hu' hu hid]; exact hc)
  | resumeQueue =>
    dsimp only [step] at hu'
    split at hu' <;> (rw [eq_of_nodup_id hnd hu' hu hid]; exact hc)
  | stopQueue =>
    rw [eq_of_nodup_id hnd hu' hu hid]
    exact hc
  | settle fi out now =>
    dsimp only [step] at hu'
    split at hu'
    · rename_i i t hfi
      obtain ⟨hfl, rfl, hok⟩ := fibs_singleton hfo hfi
      have hpo : ProcOnly s.queue t.id := hok
      split at hu'
      · rename_i q1 ph hE
        dsimp only at hu'
        refine execSettle_frozen s.maxRetries now out hnd hpo u hu hc u' ?_ hid
        rw [show execSettle s.maxRetries now s.queue t out = (q1, Sum.inl ph) from hE]
        exact hu'
      · rename_i q1 t' hE
        dsimp only [finishFiber] at hu'
        split at hu' <;>
        · dsimp only at hu'
          refine execSettle_frozen s.maxRetries now out hnd hpo u hu hc u' ?_ hid
          rw [show execSettle s.maxRetries now s.queue t out = (q1, Sum.inr t') from hE]
          exact hu'
    · rename_i t hfi
      obtain ⟨hfl, rfl, hok⟩ := fibs_singleton hfo hfi
      have hpo : ProcOnly s.queue t.id := hok
      split at hu'
      · rename_i q1 ph hE
        dsimp only at hu'
        refine execSettle_frozen s.maxRetries now out hnd hpo u hu hc u' ?_ hid
        rw [show execSettle s.maxRetries now s.queue t out = (q1, Sum.inl ph) from hE]
        exact hu'
      · rename_i q1 t' hE
        dsimp only [finishFiber] at hu'
        refine execSettle_frozen s.maxRetries now out hnd hpo u hu hc u' ?_ hid
        rw [show execSettle s.maxRetries now s.queue t out = (q1, Sum.inr t') from hE]
        exact hu'
    · rw [eq_of_nodup_id hnd hu' hu hid]
      exact hc
  | timer fi now =>
    dsimp only [step] at hu'
    split at hu'
    · rename_i i t hfi
      obtain ⟨hfl, rfl, hok⟩ := fibs_singleton hfo hfi
      have hpa : PendAt s.queue t.id := hok
      have hnc : ∀ v ∈ s.queue, v.id = t.id → v.status ≠ Status.completed := by
        intro v hv hvid
        rw [hpa.1 v hv hvid]
        simp
      split at hu'
      · rename_i q1 ph hE
        dsimp only at hu'
        refine execEnter_frozen s.maxRetries now hnd hnc u hu hc u' ?_ hid
        rw [show execEnter s.maxRetries now s.queue t = (q1, Sum.inl ph) from hE]
        exact hu'
      · rename_i q1 t' hE
        dsimp only [finishFiber] at hu'
        split at hu' <;>
        · dsimp only at hu'
          refine execEnter_frozen s.maxRetries now hnd hnc u hu hc u' ?_ hid
          rw [show execEnter s.maxRetries now s.queue t = (q1, Sum.inr t') from hE]
          exact hu'
    · rename_i t hfi
      obtain ⟨hfl, rfl, hok⟩ := fibs_singleton hfo hfi
      have hpa : PendAt s.queue t.id := hok
      have hnc : ∀ v ∈ s.queue, v.id = t.id → v.status ≠ Status.completed := by
        intro v hv hvid
        rw [hpa.1 v hv hvid]
        simp
      split at hu'
      · rename_i q1 ph hE
        dsimp only at hu'
        refine execEnter_frozen s.maxRetries now hnd hnc u hu hc u' ?_ hid
        rw [show execEnter s.maxRetries now s.queue t = (q1, Sum.inl ph) from hE]
        exact hu'
      · rename_i q1 t' hE
        dsimp only [finishFiber] at hu'
        refine execEnter_frozen s.maxRetries now hnd hnc u hu hc u' ?_ hid
        rw [show execEnter s.maxRetries now s.queue t = (q1, Sum.inr t') from hE]
        exact hu'
    · rename_i i hfi
      cases hpz : s.isPaused with
      | true =>
        rw [hpz] at hu'
        rw [show sweepLoop s.maxRetries now true s.queue (i + 1)
          = (s.queue, none) from sweepLoopAux_paused s.maxRetries now s.queue
            (s.queue.length - (i + 1)) (i + 1)] at hu'
        dsimp only at hu'
        rw [eq_of_nodup_id hnd hu' hu hid]
        exact hc
      | false =>
        rw [hpz] at hu'
        split at hu'
        · rename_i q1 ci f hSL
          dsimp only at hu'
          have hfr := sweepLoopAux_frozen s.maxRetries now s.queue hnd
            (s.queue.length - (i + 1)) (i + 1) u hu hc
          refine hfr u' ?_ hid
          rw [show sweepLoopAux s.maxRetries now false s.queue
            (s.queue.length - (i + 1)) (i + 1) = (q1, some (ci, f)) from hSL]
          exact hu'
        · rename_i q1 hSL
          dsimp only at hu'
          have hfr := sweepLoopAux_frozen s.maxRetries now s.queue hnd
            (s.queue.length - (i + 1)) (i + 1) u hu hc
          refine hfr u' ?_ hid
          rw [show sweepLoopAux s.maxRetries now false s.queue
            (s.queue.length - (i + 1)) (i + 1) = (q1, none) from hSL]
          exact hu'
    · rw [eq_of_nodup_id hnd hu' hu hid]
      exact hc

/-! ## The retry recursion of `executeTask` -/

theorem executeTaskGo_fail (mr : Nat) (exec : Nat → Except String String) (now : Nat)
    (hfail : ∀ n, ∃ m, exec n = Except.error m) :
    ∀ fuel t, knownType t.type = true → t.retryCount ≤ mr →
      mr - t.retryCount < fuel →
      (executeTaskGo mr exec now fuel t).status = Status.failed ∧
      (executeTaskGo mr exec now fuel t).retryCount = mr := by
  intro fuel
  induction fuel with
  | zero =>
    intro t hk hle hlt
    exact absurd hlt (Nat.not_lt_zero _)
  | succ n ih =>
    intro t hk hle hlt
    obtain ⟨m, hm⟩ := hfail t.retryCount
    unfold executeTaskGo
    dsimp only
    rw [show (if knownType (startAttempt now t).type = true
          then exec (startAttempt now t).retryCount
          else Except.error (unknownTypeMsg (startAttempt now t).type))
        = Except.error m from by
      rw [if_pos (show knownType (startAttempt now t).type = true from hk)]
      exact hm]
    dsimp only
    by_cases hrc : t.retryCount < mr
    · rw [if_pos (show (startAttempt now t).retryCount < mr from hrc)]
      have hk2 : knownType (retryBump mr m (startAttempt now t)).type = true := hk
      have hle2 : (retryBump mr m (startAttempt now t)).retryCount ≤ mr := by
        show t.retryCount + 1 ≤ mr
        omega
      have hlt2 : mr - (retryBump mr m (startAttempt now t)).retryCount < n := by
        show mr - (t.retryCount + 1) < n
        omega
      exact ih _ hk2 hle2 hlt2
    · rw [if_neg (show ¬ (startAttempt now t).retryCount < mr from hrc)]
      exact ⟨rfl, show t.retryCount = mr by omega⟩

theorem executeTaskGo_unknown (mr : Nat) (exec : Nat → Except String String)
    (now : Nat) :
    ∀ fuel t, knownType t.type = false → t.retryCount ≤ mr →
      mr - t.retryCount < fuel →
      (executeTaskGo mr exec now fuel t).status = Status.failed ∧
      (executeTaskGo mr exec now fuel t).retryCount = mr ∧
      (executeTaskGo mr exec now fuel t).error = some (unknownTypeMsg t.type) := by
  intro fuel
  induction fuel with
  | zero =>
    intro t hk hle hlt
    exact absurd hlt (Nat.not_lt_zero _)
  | succ n ih =>
    intro t hk hle hlt
    unfold executeTaskGo
    dsimp only
    rw [show (if knownType (startAttempt now t).type = true
          then exec (startAttempt now t).retryCount
          else Except.error (unknownTypeMsg (startAttempt now t).type))
        = Except.error (unknownTypeMsg t.type) from by
      rw [if_neg (show ¬ knownType (startAttempt now t).type = true from by
        rw [show (startAttempt now t).type = t.type from rfl, hk]
        simp)]
      rfl]
    dsimp only
    by_cases hrc : t.retryCount < mr
    · rw [if_pos (show (startAttempt now t).retryCount < mr from hrc)]
      have hk2 : knownType (retryBump mr (unknownTypeMsg t.type)
          (startAttempt now t)).type = false := hk
      have hle2 : (retryBump mr (unknownTypeMsg t.type)
          (startAttempt now t)).retryCount ≤ mr := by
        show t.retryCount + 1 ≤ mr
        omega
      have hlt2 : mr - (retryBump mr (unknownTypeMsg t.type)
          (startAttempt now t)).retryCount < n := by
        show mr - (t.retryCount + 1) < n
        omega
      exact ih _ hk2 hle2 hlt2
    · rw [if_neg (show ¬ (startAttempt now t).retryCount < mr from hrc)]
      exact ⟨rfl, show t.retryCount = mr by omega, rfl⟩

theorem executeTaskStatesGo_bound (mr : Nat) (exec : Nat → Except String String)
    (now : Nat) :
    ∀ fuel t, t.retryCount ≤ mr →
      ∀ u ∈ executeTaskStatesGo mr exec now fuel t, u.retryCount ≤ mr := by
  intro fuel
  induction fuel with
  | zero =>
    intro t hle u hu
    rw [show executeTaskStatesGo mr exec now 0 t = [t] from rfl] at hu
    rw [List.mem_singleton.mp hu]
    exact hle
  | succ n ih =>
    intro t hle u hu
    unfold executeTaskStatesGo at hu
    dsimp only at hu
    split at hu
    · rcases List.mem_cons.mp hu with rfl | hu2
      · exact hle
      · rw [List.mem_singleton.mp hu2]
        exact hle
    · rename_i msg hmsg
      split at hu
      · rename_i hrc
        rcases List.mem_cons.mp hu with rfl | hu2
        · exact hle
        · refine ih _ ?_ u hu2
          show t.retryCount + 1 ≤ mr
          have : (startAttempt now t).retryCount < mr := hrc
          rw [startAttempt_retryCount] at this
          omega
      · rcases List.mem_cons.mp hu with rfl | hu2
        · exact hle
        · rw [List.mem_singleton.mp hu2]
          exact hle

/-! ## Position and frame facts about `reorderTask` -/

theorem getElem?_insertAt_self {α : Type} (n : Nat) (a : α) (l : List α)
    (h : n ≤ l.length) : (insertAt n a l)[n]? = some a := by
  induction l generalizing n with
  | nil =>
    cases n with
    | zero =>
      rw [show insertAt 0 a ([] : List α) = [a] from rfl]
      exact List.getElem?_cons_zero
    | succ m => simp at h
  | cons b bs ih =>
    cases n with
    | zero =>
      rw [show insertAt 0 a (b :: bs) = a :: b :: bs from rfl]
      exact List.getElem?_cons_zero
    | succ m =>
      rw [show insertAt (m + 1) a (b :: bs) = b :: insertAt m a bs from rfl,
        List.getElem?_cons_succ]
      exact ih m (Nat.le_of_succ_le_succ h)

theorem map_eraseIdx {α β : Type} (g : α → β) :
    ∀ (l : List α) (i : Nat), (l.eraseIdx i).map g = (l.map g).eraseIdx i
  | [], _ => rfl
  | _ :: _, 0 => rfl
  | a :: l, i + 1 => by
    show g a :: (l.eraseIdx i).map g = (g a :: l.map g).eraseIdx (i + 1)
    rw [map_eraseIdx g l i]
    rfl

theorem map_insertAt {α β : Type} (g : α → β) (n : Nat) (a : α) (l : List α) :
    (insertAt n a l).map g = insertAt n (g a) (l.map g) := by
  induction l generalizing n with
  | nil => cases n <;> rfl
  | cons b bs ih =>
    cases n with
    | zero => rfl
    | succ m =>
      show g b :: (insertAt m a bs).map g = g b :: insertAt m (g a) (bs.map g)
      rw [ih m]

theorem sum_inl_ne_inr {α β : Type} (x : α) (y : β) : Sum.inl x ≠ Sum.inr y :=
  fun h => Sum.noConfusion h

/-- When a resumed `executeTask` invocation returns, the task it returns
is in a terminal state: `completed` on executor success, `failed` on
exhausted retries. -/
theorem execSettle_inr_terminal (mr now : Nat) (q : List Task) (t : Task)
    (out : Except String String) (q1 : List Task) (t' : Task)
    (h : execSettle mr now q t out = (q1, Sum.inr t')) :
    t'.status = Status.completed ∨ t'.status = Status.failed := by
  unfold execSettle at h
  cases out with
  | ok r =>
    dsimp only at h
    injection h with h1 h2
    injection h2 with h3
    rw [← h3]
    exact Or.inl rfl
  | error msg =>
    dsimp only at h
    split at h
    · injection h with h1 h2
      exact absurd h2 (sum_inl_ne_inr _ _)
    · injection h with h1 h2
      injection h2 with h3
      rw [← h3]
      exact Or.inr rfl

/-- When the synchronous part of `executeTask` returns without suspending
(unknown kind, retries exhausted), the task is `failed`. -/
theorem execEnter_inr_failed (mr now : Nat) (q : List Task) (t : Task)
    (q1 : List Task) (t' : Task)
    (h : execEnter mr now q t = (q1, Sum.inr t')) :
    t'.status = Status.failed := by
  unfold execEnter at h
  dsimp only at h
  split at h
  · injection h with h1 h2
    exact absurd h2 (sum_inl_ne_inr _ _)
  · split at h
    · injection h with h1 h2
      exact absurd h2 (sum_inl_ne_inr _ _)
    · injection h with h1 h2
      injection h2 with h3
      rw [← h3]
      rfl

/-! ## The claims -/

/-- C1, counterexample: the single-worker invariant as stated is violated
by a sequence of the claim's own queue operations.  `addTask`, `addTask`,
`runAll` (task 0 goes `processing`, its Executor in flight), `stopQueue`
(clears `isRunning` without cancelling the in-flight call), `runTask` on
task 1 (the `isRunning` guard passes): now two tasks are `processing` and
two Executor invocations are live before either settles. -/
theorem c1_stop_breaks_single_worker :
    countProcessing (run initQM c1events).queue = 2 ∧
      (run initQM c1events).fibers.length = 2 := by decide

/-- C1, amended: for every sequence of queue operations and fiber
resumptions that does not invoke `stopQueue`, every reachable state of a
fresh manager has at most one `processing` task and at most one live
`executeTask` invocation — a second Executor call never begins, via
`runAll` or `runTask`, before the previous one settles. -/
theorem c1_single_worker_without_stop (es : List Event)
    (hns : ∀ e ∈ es, isStopEvent e = false) :
    countProcessing (run initQM es).queue ≤ 1 ∧
      (run initQM es).fibers.length ≤ 1 :=
  inv_count (inv_run es hns initQM inv_initQM)

theorem c1_single_worker_witness :
    countProcessing (run initQM c1safeEvents).queue ≤ 1 ∧
      (run initQM c1safeEvents).fibers.length ≤ 1 :=
  c1_single_worker_without_stop c1safeEvents (by decide)

/-- C2, evaluated at the failing input: `stopQueue` during a `runAll`
sweep resets the flags (`isRunning = false` afterwards), but the sweep
loop checks only `isPaused`, so after the in-flight task settles and the
inter-task delay elapses, the sweep still picks up the next task — task 1
reaches `processing` in the very sweep that was stopped, contradicting
both the spec and `stopQueue`'s own doc comment/log ("队列已停止"). -/
theorem c2_stop_does_not_stop_sweep :
    statusOfId (run initQM c2events).queue 1 = some Status.processing ∧
      (run initQM c2events).isRunning = false := by decide

/-- C3: a task whose Executor fails on every attempt ends `failed` with
`retryCount = maxRetries`, and `retryCount` never exceeds `maxRetries` at
any intermediate state of the invocation. -/
theorem c3_retry_bound (mr : Nat) (exec : Nat → Except String String)
    (now : Nat) (t : Task) (hk : knownType t.type = true)
    (hfail : ∀ n, ∃ m, exec n = Except.error m) (h0 : t.retryCount = 0) :
    (executeTaskPure mr exec now t).status = Status.failed ∧
    (executeTaskPure mr exec now t).retryCount = mr ∧
    ∀ u ∈ executeTaskStates mr exec now t, u.retryCount ≤ mr := by
  have h1 := executeTaskGo_fail mr exec now hfail (mr - t.retryCount + 1) t hk
    (by omega) (by omega)
  exact ⟨h1.1, h1.2, executeTaskStatesGo_bound mr exec now _ t (by omega)⟩

theorem c3_retry_bound_witness :
    (executeTaskPure 3 (fun _ => Except.error "boom") 0 sampleGenTask).status
        = Status.failed ∧
    (executeTaskPure 3 (fun _ => Except.error "boom") 0 sampleGenTask).retryCount
        = 3 := by
  have h := c3_retry_bound 3 (fun _ => Except.error "boom") 0 sampleGenTask
    (by decide) (fun n => ⟨"boom", rfl⟩) rfl
  exact ⟨h.1, h.2.1⟩

/-- C4, counterexample: `importQueue` replaces the task list wholesale
without the crash-recovery normalisation — a snapshot task with stored
status `processing` stays `processing` after import, while
`loadFromStorage` on the same snapshot yields `pending`. -/
theorem c4_import_keeps_processing :
    (importQueueData [processingSnapshotTask]).head?.map Task.status
        = some Status.processing ∧
    ¬ ((importQueueData [processingSnapshotTask]).head?.map Task.status
        = some Status.pending) ∧
    (loadFromStorage (some [processingSnapshotTask])).head?.map Task.status
        = some Status.pending := by decide

/-- C4, amended: loading from a persisted snapshot applies the
crash-recovery normalisation (`processing → pending`, `retryCount` and all
other fields unchanged); `importQueue`, however, replaces the task list
wholesale with no normalisation, and the snapshot it immediately saves
also keeps every imported status. -/
theorem c4_load_normalizes_import_does_not :
    (∀ (q : List Task) (i : Nat) (u : Task), q[i]? = some u →
      ∃ u', (loadFromStorage (some q))[i]? = some u' ∧
        u'.status = (if u.status = Status.processing then Status.pending
          else u.status) ∧
        u'.retryCount = u.retryCount ∧ u'.id = u.id ∧ u'.params = u.params ∧
        u'.result = u.result ∧ u'.error = u.error) ∧
    (∀ q : List Task, importQueueData q = q) ∧
    (∀ (q : List Task) (i : Nat) (u : Task), q[i]? = some u →
      ((saveToStorageData (importQueueData q))[i]?.map Task.status)
        = some u.status) := by
  refine ⟨?_, fun q => rfl, ?_⟩
  · intro q i u hq
    refine ⟨if u.status = Status.processing then { u with status := .pending }
      else u, ?_, ?_, ?_, ?_, ?_, ?_, ?_⟩
    · show (normalizeLoaded q)[i]? = _
      unfold normalizeLoaded
      rw [List.getElem?_map, hq]
      rfl
    · by_cases h : u.status = Status.processing <;> simp [h]
    · by_cases h : u.status = Status.processing <;> simp [h]
    · by_cases h : u.status = Status.processing <;> simp [h]
    · by_cases h : u.status = Status.processing <;> simp [h]
    · by_cases h : u.status = Status.processing <;> simp [h]
    · by_cases h : u.status = Status.processing <;> simp [h]
  · intro q i u hq
    show ((saveToStorageData q)[i]?.map Task.status) = some u.status
    unfold saveToStorageData
    rw [List.getElem?_map, hq]
    rfl

theorem c4_witness :
    ∃ u', (loadFromStorage (some [processingSnapshotTask]))[0]? = some u' ∧
      u'.status = (if processingSnapshotTask.status = Status.processing
        then Status.pending else processingSnapshotTask.status) ∧
      u'.retryCount = processingSnapshotTask.retryCount ∧
      u'.id = processingSnapshotTask.id ∧
      u'.params = processingSnapshotTask.params ∧
      u'.result = processingSnapshotTask.result ∧
      u'.error = processingSnapshotTask.error :=
  c4_load_normalizes_import_does_not.1 [processingSnapshotTask] 0
    processingSnapshotTask (by decide)

/-- C5: if `pause()` is called while a task is mid-execution during a
sweep, then (a) along any continuation that does not invoke
`resumeQueue`/`runAll`/`runTask`/`stopQueue`, the pause flag stays up and
the only task that can be (or become, through its own retries)
`processing` is the one already being executed — the next task never
starts; and (b) the in-flight invocation still drives its task to a
terminal state: when `executeTask` returns, the task is `completed` or
`failed`. -/
theorem c5_pause_honored (s : QM) (es : List Event) (hs : Inv s)
    (hp : s.isPaused = true)
    (ha : ∀ e ∈ es, allowedWhilePaused e = true) :
    (∀ u ∈ (run s es).queue, u.status = Status.processing →
      u.id ∈ fibIds s) ∧
    (run s es).isPaused = true ∧
    (∀ (mr now : Nat) (q : List Task) (t : Task) (out : Except String String)
      (q1 : List Task) (t' : Task),
      execSettle mr now q t out = (q1, Sum.inr t') →
      t'.status = Status.completed ∨ t'.status = Status.failed) ∧
    (∀ (mr now : Nat) (q : List Task) (t : Task) (q1 : List Task) (t' : Task),
      execEnter mr now q t = (q1, Sum.inr t') → t'.status = Status.failed) := by
  have h := pause_run s es hs hp ha
  refine ⟨?_, h.2.1, execSettle_inr_terminal, execEnter_inr_failed⟩
  intro u hu hup
  exact h.2.2 u.id (proc_sub_fibIds h.1 u hu hup)

theorem c5_pause_honored_witness : c5procTask.id ∈ fibIds c5state :=
  (c5_pause_honored c5state c5laterEvents (by decide) (by decide) (by decide)).1
    c5procTask (by decide) (by decide)

/-- C6, counterexample: a task whose `type` matches no `switch` case does
NOT fail immediately — the thrown unknown-type error lands in the same
catch block as executor failures and is retried: with an Executor that
would even succeed, the task ends `failed` with `retryCount = 3`, not
with its retries unconsumed. -/
theorem c6_unknown_kind_is_retried :
    (executeTaskPure 3 (fun _ => Except.ok "unused") 0 unknownKindTask).retryCount
        = 3 ∧
    ¬ ((executeTaskPure 3 (fun _ => Except.ok "unused") 0
        unknownKindTask).retryCount = 0) ∧
    (executeTaskPure 3 (fun _ => Except.ok "unused") 0 unknownKindTask).status
        = Status.failed := by decide

/-- C6, amended: an unknown task kind throws inside `executeTask`'s `try`
and is handled by the same retry logic as an Executor failure: whatever
the registered executors would return, the task is retried until
`retryCount = maxRetries` and ends `failed` with the unknown-kind
message. -/
theorem c6_unknown_kind_retry_exhaustion (mr : Nat)
    (exec : Nat → Except String String) (now : Nat) (t : Task)
    (hk : knownType t.type = false) (hle : t.retryCount ≤ mr) :
    (executeTaskPure mr exec now t).status = Status.failed ∧
    (executeTaskPure mr exec now t).retryCount = mr ∧
    (executeTaskPure mr exec now t).error = some (unknownTypeMsg t.type) :=
  executeTaskGo_unknown mr exec now _ t hk hle (by omega)

theorem c6_unknown_kind_witness :
    (executeTaskPure 3 (fun _ => Except.ok "unused") 0 unknownKindTask).status
        = Status.failed ∧
    (executeTaskPure 3 (fun _ => Except.ok "unused") 0 unknownKindTask).error
        = some (unknownTypeMsg unknownKindTask.type) := by
  have h := c6_unknown_kind_retry_exhaustion 3 (fun _ => Except.ok "unused") 0
    unknownKindTask (by decide) (by decide)
  exact ⟨h.1, h.2.2⟩

/-- C7, counterexample: `reorderTask` has no guard on the moved task's
status — moving index 0 while the task there is `processing` changes the
list, instead of being rejected or ignored. -/
theorem c7_processing_task_is_moved :
    reorderTask c7queue 0 1 ≠ c7queue ∧
    reorderTask c7queue 0 1
      = [mkTask 1 "generation" Status.pending 0,
         mkTask 0 "generation" Status.processing 0] := by decide

/-- C7, amended: `reorderTask` is a no-op exactly when the two indices are
equal; when they differ the move is performed regardless of the moved
task's status — the operation commutes with any transformation of the
tasks' fields, so the `processing` status of the task at `fromIndex` has
no influence. -/
theorem c7_reorder_noop_and_status_blind :
    (∀ (q : List Task) (i : Nat), reorderTask q i i = q) ∧
    (∀ (g : Task → Task) (q : List Task) (f t : Nat),
      reorderTask (q.map g) f t = (reorderTask q f t).map g) := by
  constructor
  · intro q i
    unfold reorderTask
    rw [if_pos rfl]
  · intro g q f t
    unfold reorderTask
    by_cases hft : f = t
    · rw [if_pos hft, if_pos hft]
    · rw [if_neg hft, if_neg hft, List.getElem?_map]
      cases hf : q[f]? with
      | none => rfl
      | some a =>
        dsimp only [Option.map]
        rw [map_insertAt, map_eraseIdx]

/-- C8, counterexample: `runTask` does not check its target's status.
After one task completes, invoking `runTask` on it again drives it from
`completed` back to `processing` — a transition out of `completed`, and
an `executeTask` invocation whose precondition
`status ∈ {pending, failed}` does not hold. -/
theorem c8_runTask_revives_completed :
    statusOfId (run initQM c8events).queue 0 = some Status.completed ∧
    statusOfId (run initQM (c8events ++ [Event.runTask 0 9])).queue 0
        = some Status.processing := by decide

/-- C8, amended: from any state satisfying the single-worker invariant,
every queue operation and fiber resumption other than `runTask` preserves
`completed` statuses: `runAll`'s sweep only starts `pending`/`failed`
tasks, the settle/retry resumptions only write to the task their fiber is
executing, and the remaining operations do not change statuses.  Only
`runTask`, which executes its target unconditionally, can take a task out
of `completed`. -/
theorem c8_completed_preserved_except_runTask (s : QM) (e : Event)
    (hs : Inv s) (he : isRunTaskEvent e = false) (u u' : Task)
    (hu : u ∈ s.queue) (hc : u.status = Status.completed)
    (hu' : u' ∈ (step s e).queue) (hid : u'.id = u.id) :
    u'.status = Status.completed :=
  completed_frozen_step s e hs he u hu hc u' hu' hid

theorem c8_completed_witness : c8doneTask.status = Status.completed :=
  c8_completed_preserved_except_runTask c8state (Event.reorderTask 0 0)
    (by decide) (by decide) c8doneTask c8doneTask (by decide) (by decide)
    (by decide) rfl

/-- C9: the snapshot written by `saveToStorage` contains every task with
the two uploaded-file params (`referenceImage`, `productImage`) nulled
and every other field — including all remaining params — equal to its
in-memory value; no file payload ever appears in the persisted data. -/
theorem c9_snapshot_excludes_binary (q : List Task) :
    (saveToStorageData q).length = q.length ∧
    ∀ (i : Nat) (u : Task), q[i]? = some u →
      (saveToStorageData q)[i]? = some (snapshotTask u) ∧
      (snapshotTask u).params.referenceImage = none ∧
      (snapshotTask u).params.productImage = none ∧
      (snapshotTask u).params.other = u.params.other ∧
      (snapshotTask u).id = u.id ∧ (snapshotTask u).type = u.type ∧
      (snapshotTask u).status = u.status ∧
      (snapshotTask u).result = u.result ∧
      (snapshotTask u).error = u.error ∧
      (snapshotTask u).retryCount = u.retryCount ∧
      (snapshotTask u).createdAt = u.createdAt ∧
      (snapshotTask u).priority = u.priority ∧
      (snapshotTask u).startTime = u.startTime ∧
      (snapshotTask u).completedAt = u.completedAt ∧
      (snapshotTask u).duration = u.duration := by
  refine ⟨by simp [saveToStorageData], ?_⟩
  intro i u hq
  refine ⟨?_, rfl, rfl, rfl, rfl, rfl, rfl, rfl, rfl, rfl, rfl, rfl, rfl, rfl, rfl⟩
  unfold saveToStorageData
  rw [List.getElem?_map, hq]
  rfl

theorem c9_snapshot_witness :
    (saveToStorageData [uploadTask])[0]? = some (snapshotTask uploadTask) ∧
    (snapshotTask uploadTask).params.referenceImage = none ∧
    (snapshotTask uploadTask).params.productImage = none ∧
    (snapshotTask uploadTask).params.other = uploadTask.params.other := by
  have h := (c9_snapshot_excludes_binary [uploadTask]).2 0 uploadTask (by decide)
  exact ⟨h.1, h.2.1, h.2.2.1, h.2.2.2.1⟩

/-- C10: for in-bounds indices, `reorderTask` yields a permutation of the
queue — the same tasks with unmodified fields, none added, dropped or
duplicated — and when the indices differ, the task that was at
`fromIndex` ends up at `toIndex`. -/
theorem c10_reorder_is_permutation (q : List Task) (f t : Nat)
    (hf : f < q.length) (ht : t < q.length) :
    (reorderTask q f t).Perm q ∧
    (f ≠ t → ∀ a, q[f]? = some a → (reorderTask q f t)[t]? = some a) := by
  refine ⟨reorderTask_perm q f t, ?_⟩
  intro hne a ha
  unfold reorderTask
  rw [if_neg hne, ha]
  apply getElem?_insertAt_self
  rw [List.length_eraseIdx_of_lt hf]
  omega

theorem c10_reorder_witness :
    (reorderTask c10queue 0 2).Perm c10queue ∧
    (reorderTask c10queue 0 2)[2]? = some (mkTask 0 "generation" Status.pending 0) := by
  have h := c10_reorder_is_permutation c10queue 0 2 (by decide) (by decide)
  exact ⟨h.1, h.2 (by decide) (mkTask 0 "generation" Status.pending 0) (by decide)⟩

end TaskQueue
